import Mathlib

/-!
Verification of the gunrock `edge_map_partitioned` kernel file
(`src/gunrock/oprtr/edge_map_partitioned/kernel.cuh`).

Shallow embedding conventions:
* Device memory is a `List Int`; a read through `aread` returns the stored
  value in range and the default `0` out of range (a real out-of-range read
  returns an unspecified value; no claim proved here depends on the default).
* `VertexId` and `SizeT` are C `int`s; all index arithmetic is over `Int`.
  The only place where 32-bit wrap-around is observable on valid inputs is
  `MarkPartitionSizes` (unsigned multiplication), where the stored value is
  modelled by an explicit `% 2 ^ 32` over `Nat`.
* The SIMT grid is serialized: blocks run in ascending `blockIdx.x` order and
  threads in ascending `threadIdx.x` order.  All stores of the kernels under
  study go to distinct addresses on consistent inputs, and the shared staging
  buffers are written before a barrier and read after it, so this schedule
  realizes the same memory contents as any hardware schedule; the opaque
  problem state threaded through predicate/visitor is sequentialized the same
  way (the source imposes no cross-worker order on it).
* Each kernel model returns the trace of output-queue stores (`ws`, as
  (index, value) pairs in program order) and visitor invocations (`apl`).

Transcription defects in the source that do not parse as C++ are resolved to
the evidently intended identifier, following the source's own declarations
(the spec's design notes flag them as transcription defects): in
`GetEdgeCounts`, `bid`/`my_idx`/`max_edges` are read as the declared
`bit`(= blockIdx.x)/`my_id`/`max_edge`; in `RelaxLightEdges`,
`input_queue_len` (undeclared) is taken as an extra parameter `range`, and
`smeme_storage`/`v_indedx` as `smem_storage`/`v_index`.  Constructs that do
parse are embedded literally, including `v = d_queue[v_index]` at lines
139/149 and the `v_index < my_end_partition` guard at line 140 of the
partitioned relaxer.
-/

/-- Read of device memory at a possibly out-of-range index: the stored value
in range, the default 0 otherwise. -/
def aread (l : List Int) (i : Int) : Int :=
  if 0 ≤ i then l.getD i.toNat 0 else 0

/-- Store to device memory: a store at a negative index leaves the modelled
array unchanged (it targets memory outside the array). `List.set` is already
the identity at or beyond the length. -/
def awrite (l : List Int) (i : Int) (v : Int) : List Int :=
  if 0 ≤ i then l.set i.toNat v else l

/-- Replay a trace of (index, value) stores, in program order. -/
def applyWrites (l : List Int) (ws : List (Int × Int)) : List Int :=
  ws.foldl (fun acc w => awrite acc w.1 w.2) l

/-- Modelled from the spec: `BinarySearch<NT>(target, buffer)` from
`edge_map_partitioned/cta.cuh`, which is not under `src/`.  Per spec §4.4 it
returns the first index whose staged value exceeds the target (an
upper-bound probe); if no entry exceeds the target it runs off the end of
the buffer, modelled as returning the buffer length. -/
def upperBound (buf : List Int) (target : Int) : Nat :=
  match buf with
  | [] => 0
  | x :: xs => if target < x then 0 else upperBound xs target + 1

/-- Number of iterations of a strided loop `for (i = lo; i < hi; i += T)`. -/
def strideCnt (lo hi : Int) (T : Nat) : Nat :=
  ((hi - lo + (T : Int) - 1) / (T : Int)).toNat

/-- Iteration indices of a strided loop `for (i = lo; i < hi; i += T)`,
in execution order. -/
def strideList (lo hi : Int) (T : Nat) : List Int :=
  (List.range (strideCnt lo hi T)).map fun k : Nat => lo + (k : Int) * T

/-- Trace of one kernel (or one worker-group) execution: final opaque problem
state, the output-queue stores in order, and the visitor invocations. -/
structure KOut (σ : Type) where
  s : σ
  ws : List (Int × Int)
  apl : List (Int × Int)

/-- Run a list of worker groups in ascending id order, threading the opaque
problem state and concatenating their traces. -/
def kernelFold {σ : Type} (blk : Nat → σ → KOut σ) : List Nat → σ → KOut σ
  | [], s => ⟨s, [], []⟩
  | b :: rest, s =>
    let o1 := blk b s
    let o2 := kernelFold blk rest o1.s
    ⟨o2.s, o1.ws ++ o2.ws, o1.apl ++ o2.apl⟩

/-- The value `my_start_partition > 0 ? d_scanned_edges[my_start_partition-1] : 0`
(kernel.cuh lines 120 and 126). -/
def preRead (scanned : List Int) (p : Int) : Int :=
  if 0 < p then aread scanned (p - 1) else 0

/-- `Dispatch::GetNeighborListLength` (kernel.cuh lines 40-50): the degree of
`v`, with the row-offset lookup clamped to `max_edge` when the id (or its
successor) is at or beyond `max_vertex`. -/
def GetNeighborListLength (row : List Int) (v maxV maxE : Int) : Int :=
  let first := if maxV ≤ v then maxE else aread row v
  let second := if maxV ≤ v + 1 then maxE else aread row (v + 1)
  if first < second then second - first else 0

/-- Stores performed by `Dispatch::GetEdgeCounts` (kernel.cuh lines 52-69)
over a grid of `numWorkers` workers (worker `w` has `my_id = w`).  A worker
idles when `my_id >= num_elements || my_id >= max_edge`; otherwise it writes
the degree of the frontier vertex at position `my_id` to
`d_scanned_edges[my_id]`.  (The source's `bid`/`my_idx`/`max_edges` are the
declared `bit`/`my_id`/`max_edge`; see the file comment.) -/
def getEdgeCountsWrites (row queue : List Int) (numWorkers : Nat)
    (nE maxV maxE : Int) : List (Nat × Int) :=
  (List.range numWorkers).filterMap fun w : Nat =>
    if nE ≤ (w : Int) ∨ maxE ≤ (w : Int) then none
    else some (w, GetNeighborListLength row (aread queue w) maxV maxE)

/-- `Dispatch::GetEdgeCounts`: the contents of `d_scanned_edges` after the
grid completes. -/
def GetEdgeCounts (row queue scanned0 : List Int) (numWorkers : Nat)
    (nE maxV maxE : Int) : List Int :=
  (getEdgeCountsWrites row queue numWorkers nE maxV maxE).foldl
    (fun acc wv => acc.set wv.1 wv.2) scanned0

/-- Stores performed by `Dispatch::MarkPartitionSizes` (kernel.cuh lines
71-82).  `needles` and `split_val` are `unsigned int`, so the stored value is
the 32-bit product `split_val * my_id` — modelled as an explicit mod 2^32. -/
def markPartitionSizesWrites (numWorkers : Nat) (splitVal : Nat)
    (size : Int) : List (Nat × Nat) :=
  (List.range numWorkers).filterMap fun w : Nat =>
    if size ≤ (w : Int) then none else some (w, splitVal * w % 2 ^ 32)

/-- `Dispatch::MarkPartitionSizes`: contents of `needles` after the grid. -/
def MarkPartitionSizes (needles0 : List Nat) (numWorkers : Nat)
    (splitVal : Nat) (size : Int) : List Nat :=
  (markPartitionSizesWrites numWorkers splitVal size).foldl
    (fun acc wv => acc.set wv.1 wv.2) needles0

/-- Spec-side expected output of an identity-predicate relax pass: the
concatenation of `column_indices[row_offsets[v] : row_offsets[v+1]]` over
the frontier in order (spec §8, "Identity predicate").  This definition
follows the spec's words, for comparison against the kernel models. -/
def sliceL (l : List Int) (a b : Int) : List Int :=
  (List.range (b - a).toNat).map fun k : Nat => aread l (a + (k : Int))

/-- Spec-side concatenation of adjacency lists over the frontier. -/
def concatNeighbors (row col queue : List Int) : List Int :=
  queue.flatMap fun v => sliceL col (aread row v) (aread row (v + 1))

/-- Parameters of a `RelaxLightEdges` launch (kernel.cuh lines 179-241).
`range` is the frontier length `input_queue_len`: the source reads this
identifier at line 189 without declaring it (a transcription defect flagged
by the spec's design notes), so it is supplied as a parameter here. -/
structure LightEnv (σ : Type) where
  T : Nat
  row : List Int
  col : List Int
  scanned : List Int
  queue : List Int
  range : Int
  maxV : Int
  maxE : Int
  cond : Int → Int → σ → Bool
  app : Int → Int → σ → σ

/-- Line 197: `offset = (THREADS*bid - 1) > 0 ? d_scanned_edges[THREADS*bid-1] : 0`. -/
def lightOffset (scanned : List Int) (T : Nat) (bid : Nat) : Int :=
  if 0 < (T : Int) * bid - 1 then aread scanned ((T : Int) * bid - 1) else 0

/-- Lines 198-200: `end_id`, then `end_id %= THREADS`.  `range` is declared
`unsigned int`, so for `range = 0` the value `range - 1` wraps to `2^32 - 1`
and its conversion to the `int` variable `end_id` reinterprets it as `-1`;
over `Int` this composite is exactly `range - 1`.  The C `%` on `int` is
truncated division, `Int.tmod`. -/
def lightEndId (T : Nat) (range : Int) (bid : Nat) : Int :=
  Int.tmod
    (if range ≤ (T : Int) * ((bid : Int) + 1) then range - 1
     else (T : Int) * ((bid : Int) + 1) - 1) T

/-- Line 201: the staged cumulative degrees `smem_storage.s_edges` of block
`bid` (position `t` holds the value staged by thread `t`). -/
def lightSE {σ : Type} (env : LightEnv σ) (bid : Nat) : List Int :=
  (List.range env.T).map fun t : Nat =>
    if (bid : Int) * env.T + t < env.range then
      aread env.scanned ((bid : Int) * env.T + t) - lightOffset env.scanned env.T bid
    else env.maxE

/-- Line 202: the staged frontier vertices `smem_storage.s_vertices`. -/
def lightSV {σ : Type} (env : LightEnv σ) (bid : Nat) : List Int :=
  (List.range env.T).map fun t : Nat =>
    if (bid : Int) * env.T + t < env.range then
      aread env.queue ((bid : Int) * env.T + t)
    else env.maxV

/-- Per-thread sequential state of the light relaxer (lines 207-211). -/
structure LTSt where
  vIndex : Nat
  v : Int
  endLast : Int

/-- Read-only context of one light worker group after staging and barrier. -/
structure LightBlockCtx (σ : Type) where
  T : Nat
  row : List Int
  col : List Int
  sE : List Int
  sV : List Int
  maxV : Int
  offset : Int
  size : Int
  cond : Int → Int → σ → Bool
  app : Int → Int → σ → σ

/-- Lines 209-211 and equally 217-219: binary-search the staged degrees for
the owner of target `i`, load the staged vertex, and recompute `end_last`. -/
def lightRefresh {σ : Type} (cx : LightBlockCtx σ) (i : Int) : LTSt :=
  let vi := upperBound cx.sE i
  { vIndex := vi
    v := aread cx.sV vi
    endLast := if (vi : Int) < cx.T then aread cx.sE vi else cx.maxV }

/-- Lines 213-240: body of the strided loop of one light thread over its
iteration indices `i`, threading the per-thread state and the problem
state, and recording each store to `d_out[offset + i]`. -/
def lightThreadGo {σ : Type} (cx : LightBlockCtx σ) :
    List Int → LTSt → σ → KOut σ
  | [], _, s => ⟨s, [], []⟩
  | i :: rest, st, s =>
    let st1 := if st.endLast ≤ i then lightRefresh cx i else st
    let internal := if 0 < st1.vIndex then aread cx.sE ((st1.vIndex : Int) - 1) else 0
    let e := i - internal
    let lookup := aread cx.row st1.v + e
    let u := aread cx.col lookup
    let c := cx.cond st1.v u s
    let s1 := if c then cx.app st1.v u s else s
    let o := lightThreadGo cx rest st1 s1
    ⟨o.s, (cx.offset + i, if c then u else -1) :: o.ws,
      (if c then [(st1.v, u)] else []) ++ o.apl⟩

/-- Threads `0 .. THREADS-1` of one light worker group, in order: each one
initializes its state by the line-209 search at target `tid` and runs the
strided loop `for (i = tid; i < size; i += THREADS)`. -/
def lightThreads {σ : Type} (cx : LightBlockCtx σ) : List Nat → σ → KOut σ
  | [], s => ⟨s, [], []⟩
  | t :: rest, s =>
    let o1 := lightThreadGo cx (strideList (t : Int) cx.size cx.T) (lightRefresh cx t) s
    let o2 := lightThreads cx rest o1.s
    ⟨o2.s, o1.ws ++ o2.ws, o1.apl ++ o2.apl⟩

/-- Line 205 after the barrier: `size = smem_storage.s_edges[end_id]`. -/
def lightSize {σ : Type} (env : LightEnv σ) (bid : Nat) : Int :=
  aread (lightSE env bid) (lightEndId env.T env.range bid)

/-- Read-only context of light worker group `bid` after staging and barrier. -/
def lightCtx {σ : Type} (env : LightEnv σ) (bid : Nat) : LightBlockCtx σ :=
  { T := env.T, row := env.row, col := env.col
    sE := lightSE env bid, sV := lightSV env bid
    maxV := env.maxV, offset := lightOffset env.scanned env.T bid
    size := lightSize env bid
    cond := env.cond, app := env.app }

/-- One worker group of `RelaxLightEdges`: stage, barrier, read
`size = smem_storage.s_edges[end_id]` (line 205), then run all threads. -/
def lightBlock {σ : Type} (env : LightEnv σ) (bid : Nat) (s : σ) : KOut σ :=
  lightThreads (lightCtx env bid) (List.range env.T) s

/-- Worker groups launched for a light pass: one group per `THREADS`-sized
chunk of the frontier, `ceil(input_queue_len / THREADS)` in total. -/
def lightNumBlocks {σ : Type} (env : LightEnv σ) : Nat :=
  strideCnt 0 env.range env.T

/-- The full `RelaxLightEdges` grid (kernel.cuh lines 179-241). -/
def RelaxLightEdges {σ : Type} (env : LightEnv σ) (s : σ) : KOut σ :=
  kernelFold (lightBlock env) (List.range (lightNumBlocks env)) s

/-- Parameters of a `RelaxPartitionedEdges` launch (kernel.cuh lines 84-177). -/
structure PartEnv (σ : Type) where
  T : Nat
  row : List Int
  col : List Int
  scanned : List Int
  queue : List Int
  ps : List Int
  numParts : Int
  psize : Int
  inlen : Int
  outlen : Int
  maxV : Int
  maxE : Int
  cond : Int → Int → σ → Bool
  app : Int → Int → σ → σ

/-- Per-block constants of the partitioned relaxer (lines 103-122). -/
structure PartCtx (σ : Type) where
  T : Nat
  row : List Int
  col : List Int
  scanned : List Int
  queue : List Int
  maxE : Int
  pEnd : Int
  work : Int
  outOff : Int
  cond : Int → Int → σ → Bool
  app : Int → Int → σ → σ

/-- Mutable state of the round loop of one partitioned worker group
(lines 122-124, 173-175) together with its accumulated trace. -/
structure PartSt (σ : Type) where
  p : Int
  eOff : Int
  processed : Int
  s : σ
  ws : List (Int × Int)
  apl : List (Int × Int)

/-- Per-round read-only context of the partitioned relaxer threads: the
staged buffers of lines 130-131 plus the round constants. -/
structure PartRoundCtx (σ : Type) where
  T : Nat
  sE : List Int
  sV : List Int
  queue : List Int
  row : List Int
  col : List Int
  maxE : Int
  pEnd : Int
  outOff : Int
  procBase : Int
  eOffBase : Int
  eLast : Int
  cond : Int → Int → σ → Bool
  app : Int → Int → σ → σ

/-- Per-thread sequential state of the partitioned relaxer (lines 138-142). -/
structure PTSt where
  vIndex : Nat
  v : Int
  endLast : Int
  internal : Int
  lookupOff : Int

/-- Lines 148-152, the in-loop owner refresh.  Note the literal source reads
`v = d_queue[v_index]` (line 149) with the round-local staged index, not
`s_vertices[v_index]` and not `d_queue[my_start_partition + v_index]`;
the staged `s_vertices` of line 131 is never read back in this kernel. -/
def partRefresh {σ : Type} (rc : PartRoundCtx σ) (i : Int) : PTSt :=
  let vi := upperBound rc.sE i
  let v := aread rc.queue vi
  { vIndex := vi
    v := v
    endLast := if (vi : Int) < (rc.T : Int) then aread rc.sE vi else rc.maxE
    internal := if 0 < vi then aread rc.sE ((vi : Int) - 1) else 0
    lookupOff := aread rc.row v }

/-- Lines 138-142, the before-loop owner resolution.  It differs from the
in-loop refresh in one literal detail: line 140 guards `end_last` with
`v_index < my_end_partition` where line 150 guards with `v_index < THREADS`. -/
def partInit {σ : Type} (rc : PartRoundCtx σ) (target : Int) : PTSt :=
  let vi := upperBound rc.sE target
  let v := aread rc.queue vi
  { vIndex := vi
    v := v
    endLast := if (vi : Int) < rc.pEnd then aread rc.sE vi else rc.maxE
    internal := if 0 < vi then aread rc.sE ((vi : Int) - 1) else 0
    lookupOff := aread rc.row v }

/-- Lines 144-172: body of the strided loop of one partitioned thread over
its iteration indices `i`.  Each iteration stores to
`d_out[out_offset + edges_processed + (i - e_offset)]` (line 158). -/
def partThreadGo {σ : Type} (rc : PartRoundCtx σ) :
    List Int → PTSt → σ → KOut σ
  | [], _, s => ⟨s, [], []⟩
  | i :: rest, st, s =>
    let st1 := if st.endLast ≤ i then partRefresh rc i else st
    let e := i - st1.internal
    let lookup := st1.lookupOff + e
    let u := aread rc.col lookup
    let outIdx := rc.outOff + rc.procBase + (i - rc.eOffBase)
    let c := rc.cond st1.v u s
    let s1 := if c then rc.app st1.v u s else s
    let o := partThreadGo rc rest st1 s1
    ⟨o.s, (outIdx, if c then u else -1) :: o.ws,
      (if c then [(st1.v, u)] else []) ++ o.apl⟩

/-- Threads `0 .. THREADS-1` of one round, in order: each initializes by the
line-138 search at target `tid + e_offset` and runs the strided loop
`for (i = tid + e_offset; i < e_last + e_offset; i += THREADS)`. -/
def partThreads {σ : Type} (rc : PartRoundCtx σ) : List Nat → σ → KOut σ
  | [], s => ⟨s, [], []⟩
  | t :: rest, s =>
    let o1 := partThreadGo rc
      (strideList ((t : Int) + rc.eOffBase) (rc.eLast + rc.eOffBase) rc.T)
      (partInit rc ((t : Int) + rc.eOffBase)) s
    let o2 := partThreads rc rest o1.s
    ⟨o2.s, o1.ws ++ o2.ws, o1.apl ++ o2.apl⟩

/-- Line 126: the round's `pre_offset`. -/
def roundPre {σ : Type} (cx : PartCtx σ) (st : PartSt σ) : Int :=
  preRead cx.scanned st.p

/-- Line 130: the staged `s_edges` of the round (position `t` holds the
value staged by thread `t`). -/
def roundSE {σ : Type} (cx : PartCtx σ) (st : PartSt σ) : List Int :=
  (List.range cx.T).map fun t : Nat =>
    if st.p + t < cx.pEnd then aread cx.scanned (st.p + t) - roundPre cx st
    else cx.maxE

/-- Line 131: the staged `s_vertices` of the round.  The literal kernel
never reads this buffer back (lines 139/149 read `d_queue` instead). -/
def roundSV {σ : Type} (cx : PartCtx σ) (st : PartSt σ) : List Int :=
  (List.range cx.T).map fun t : Nat =>
    if st.p + t < cx.pEnd then aread cx.queue (st.p + t) else (-1 : Int)

/-- Line 133: `last`, the staged index of the round's last valid entry. -/
def roundLastI {σ : Type} (cx : PartCtx σ) (st : PartSt σ) : Int :=
  if cx.pEnd ≤ st.p + (cx.T : Int) then cx.pEnd - st.p - 1 else (cx.T : Int) - 1

/-- Line 137: `e_last`, the number of output slots this round covers. -/
def roundELast {σ : Type} (cx : PartCtx σ) (st : PartSt σ) : Int :=
  min (aread (roundSE cx st) (roundLastI cx st) - st.eOff) (cx.work - st.processed)

/-- Read-only context shared by the round's threads after the line-135
barrier. -/
def roundRC {σ : Type} (cx : PartCtx σ) (st : PartSt σ) : PartRoundCtx σ :=
  { T := cx.T, sE := roundSE cx st, sV := roundSV cx st
    queue := cx.queue, row := cx.row, col := cx.col
    maxE := cx.maxE, pEnd := cx.pEnd, outOff := cx.outOff
    procBase := st.processed, eOffBase := st.eOff, eLast := roundELast cx st
    cond := cx.cond, app := cx.app }

/-- One round of the while loop (lines 126-175): recompute `pre_offset`,
stage `s_edges`/`s_vertices`, compute `last` and `e_last`, run all threads,
then advance `edges_processed`, `my_start_partition` and reset `e_offset`
(lines 173-175). -/
def partRound {σ : Type} (cx : PartCtx σ) (st : PartSt σ) : PartSt σ :=
  let o := partThreads (roundRC cx st) (List.range cx.T) st.s
  { p := st.p + cx.T, eOff := 0, processed := st.processed + roundELast cx st
    s := o.s, ws := st.ws ++ o.ws, apl := st.apl ++ o.apl }

/-- The while loop of lines 124-176, with an explicit iteration budget.
`partFuel` below supplies a budget that always outlasts the loop (each round
advances `my_start_partition` by `THREADS ≥ 1`), so the recursion is an
exact rendering of `while (edges_processed < my_work_size &&
my_start_partition < my_end_partition)`. -/
def partLoop {σ : Type} (cx : PartCtx σ) : Nat → PartSt σ → PartSt σ
  | 0, st => st
  | fuel + 1, st =>
    if st.processed < cx.work ∧ st.p < cx.pEnd then
      partLoop cx fuel (partRound cx st)
    else st

/-- Iteration budget that exceeds the number of rounds the loop can run. -/
def partFuel {σ : Type} (cx : PartCtx σ) (st : PartSt σ) : Nat :=
  (cx.pEnd - st.p).toNat + 1

/-- Line 106: `my_thread_end = min((bid+1)*partition_size, output_queue_len)`. -/
def partTEnd {σ : Type} (env : PartEnv σ) (bid : Nat) : Int :=
  if ((bid : Int) + 1) * env.psize < env.outlen
  then ((bid : Int) + 1) * env.psize else env.outlen

/-- Line 112: `my_end_partition`. -/
def partPEnd {σ : Type} (env : PartEnv σ) (bid : Nat) : Int :=
  if (bid : Int) < env.numParts - 1 then aread env.ps ((bid : Int) + 1) + 1
  else env.inlen

/-- Lines 103-122 for block `bid`: the per-block constants. -/
def partBlockCtx {σ : Type} (env : PartEnv σ) (bid : Nat) : PartCtx σ :=
  { T := env.T, row := env.row, col := env.col, scanned := env.scanned
    queue := env.queue, maxE := env.maxE
    pEnd := partPEnd env bid
    work := partTEnd env bid - (bid : Int) * env.psize
    outOff := (bid : Int) * env.psize
    cond := env.cond, app := env.app }

/-- Lines 111 and 119-122: initial loop state of block `bid`.
`e_offset = my_thread_start - pre_offset` with
`pre_offset = my_start_partition > 0 ? d_scanned_edges[my_start_partition-1] : 0`. -/
def partBlockInit {σ : Type} (env : PartEnv σ) (bid : Nat) (s : σ) : PartSt σ :=
  let p0 := aread env.ps bid
  { p := p0
    eOff := (bid : Int) * env.psize - preRead env.scanned p0
    processed := 0, s := s, ws := [], apl := [] }

/-- One worker group of `RelaxPartitionedEdges`.  Line 108: a group whose
output range starts at or beyond `output_queue_len` returns before touching
any array. -/
def partBlock {σ : Type} (env : PartEnv σ) (bid : Nat) (s : σ) : KOut σ :=
  if env.outlen ≤ (bid : Int) * env.psize then ⟨s, [], []⟩
  else
    let cx := partBlockCtx env bid
    let st0 := partBlockInit env bid s
    let F := partLoop cx (partFuel cx st0) st0
    ⟨F.s, F.ws, F.apl⟩

/-- The full `RelaxPartitionedEdges` grid (kernel.cuh lines 84-177), one
worker group per output partition. -/
def RelaxPartitionedEdges {σ : Type} (env : PartEnv σ) (s : σ) : KOut σ :=
  kernelFold (partBlock env) (List.range env.numParts.toNat) s

/-- Always-false predicate over a trivial problem state. -/
def condFalseU : Int → Int → Unit → Bool := fun _ _ _ => false

/-- Always-true predicate over a trivial problem state. -/
def condTrueU : Int → Int → Unit → Bool := fun _ _ _ => true

/-- No-op visitor over a trivial problem state. -/
def appNoopU : Int → Int → Unit → Unit := fun _ _ s => s

/-- Row offsets of the concrete CSR scenario of spec §8. -/
def specRow : List Int := [0, 2, 5, 5, 7]

/-- Column indices of the concrete CSR scenario of spec §8. -/
def specCol : List Int := [1, 2, 0, 2, 3, 0, 1]

/-- Frontier of the concrete scenario of spec §8. -/
def specQueue : List Int := [0, 1, 3]

/-- Inclusive prefix sums of the frontier degrees of the spec §8 scenario
(raw degrees [2,3,2]). -/
def specScanned : List Int := [2, 5, 7]

/-- `RelaxPartitionedEdges` launch for the spec §8 scenario with
`partition_size = 4`: `num_partitions = ceil(7/4) = 2` and the sorted search
over needles `[0, 4]` yields `partition_starts = [0, 1]`; always-false
predicate. -/
def specEnvP : PartEnv Unit :=
  { T := 4, row := specRow, col := specCol, scanned := specScanned
    queue := specQueue, ps := [0, 1], numParts := 2, psize := 4
    inlen := 3, outlen := 7, maxV := 5, maxE := 7
    cond := condFalseU, app := appNoopU }

/-- The spec §8 partitioned launch with the always-true predicate. -/
def specEnvPT : PartEnv Unit := { specEnvP with cond := condTrueU }

/-- `RelaxLightEdges` launch for the spec §8 scenario, always-false
predicate. -/
def specEnvL : LightEnv Unit :=
  { T := 4, row := specRow, col := specCol, scanned := specScanned
    queue := specQueue, range := 3, maxV := 5, maxE := 7
    cond := condFalseU, app := appNoopU }

/-- The spec §8 light launch with the always-true predicate. -/
def specEnvLT : LightEnv Unit := { specEnvL with cond := condTrueU }

/-- An empty-frontier partitioned launch (`input_queue_len = 0`,
`output_queue_len = 0`). -/
def emptyEnvP : PartEnv Unit :=
  { T := 2, row := [], col := [], scanned := [], queue := [], ps := []
    numParts := 0, psize := 1, inlen := 0, outlen := 0, maxV := 0, maxE := 0
    cond := condTrueU, app := appNoopU }

/-! ### Basic lemmas about the memory model and strided loops -/

theorem aread_map_range (f : Nat → Int) (T : Nat) (i : Int) (h0 : 0 ≤ i)
    (h1 : i < (T : Int)) : aread ((List.range T).map f) i = f i.toNat := by
  have hlt : i.toNat < T := by omega
  rw [aread, if_pos h0, List.getD_eq_getElem _ _ (by simpa using hlt)]
  simp

theorem aread_eq_getElem (l : List Int) (i : Int) (h0 : 0 ≤ i)
    (h1 : i.toNat < l.length) : aread l i = l[i.toNat] := by
  rw [aread, if_pos h0, List.getD_eq_getElem _ _ h1]

theorem awrite_length (l : List Int) (i v : Int) :
    (awrite l i v).length = l.length := by
  unfold awrite; split <;> simp

theorem applyWrites_length (ws : List (Int × Int)) (l : List Int) :
    (applyWrites l ws).length = l.length := by
  induction ws generalizing l with
  | nil => rfl
  | cons w rest ih =>
    show (applyWrites (awrite l w.1 w.2) rest).length = l.length
    rw [ih, awrite_length]

theorem getD_awrite_ne (l : List Int) (i v : Int) (k : Nat)
    (h : i ≠ (k : Int)) : (awrite l i v).getD k 0 = l.getD k 0 := by
  unfold awrite
  split
  · have hk : i.toNat ≠ k := by omega
    simp [List.getD_eq_getElem?_getD, List.getElem?_set_ne hk]
  · rfl

theorem getD_awrite_self (l : List Int) (i v : Int) (hi : 0 ≤ i)
    (hk : i.toNat < l.length) : (awrite l i v).getD i.toNat 0 = v := by
  unfold awrite
  rw [if_pos hi]
  simp [List.getD_eq_getElem?_getD, List.getElem?_set_self, hk]

theorem applyWrites_getD_of_not_mem (ws : List (Int × Int)) (l : List Int)
    (k : Nat) (h : ∀ w ∈ ws, w.1 ≠ (k : Int)) :
    (applyWrites l ws).getD k 0 = l.getD k 0 := by
  induction ws generalizing l with
  | nil => rfl
  | cons w rest ih =>
    show (applyWrites (awrite l w.1 w.2) rest).getD k 0 = l.getD k 0
    rw [ih _ fun w' hw' => h w' (List.mem_cons_of_mem _ hw'),
      getD_awrite_ne _ _ _ _ (h w (List.mem_cons_self _ _))]

theorem applyWrites_getD_of_mem (ws : List (Int × Int)) (l : List Int)
    (k : Nat) (hval : ∀ w ∈ ws, w.2 = -1)
    (hmem : (k : Int) ∈ ws.map Prod.fst) (hk : k < l.length) :
    (applyWrites l ws).getD k 0 = -1 := by
  induction ws generalizing l with
  | nil => simp at hmem
  | cons w rest ih =>
    show (applyWrites (awrite l w.1 w.2) rest).getD k 0 = -1
    by_cases hr : (k : Int) ∈ rest.map Prod.fst
    · exact ih _ (fun w' hw' => hval w' (List.mem_cons_of_mem _ hw'))
        hr (by rw [awrite_length]; exact hk)
    · have hw1 : w.1 = (k : Int) := by
        rcases List.mem_map.1 hmem with ⟨w', hw', he⟩
        rcases List.mem_cons.1 hw' with h1 | h1
        · rw [h1] at he; exact he
        · exact absurd (List.mem_map.2 ⟨w', h1, he⟩) hr
      rw [applyWrites_getD_of_not_mem _ _ _
        (fun w' hw' hcon => hr (by
          rcases List.mem_map.1 (List.mem_map.2 ⟨w', hw', rfl⟩) with _
          exact List.mem_map.2 ⟨w', hw', hcon⟩))]
      have hk0 : (0 : Int) ≤ w.1 := by omega
      have : w.1.toNat = k := by omega
      rw [hval w (List.mem_cons_self _ _)] at *
      rw [← this, getD_awrite_self _ _ _ hk0 (by omega)]

theorem applyWrites_eq_replicate (ws : List (Int × Int)) (l : List Int)
    (n : Nat) (hlen : l.length = n) (hval : ∀ w ∈ ws, w.2 = -1)
    (hcov : ∀ k : Nat, k < n → (k : Int) ∈ ws.map Prod.fst) :
    applyWrites l ws = List.replicate n (-1) := by
  apply List.eq_replicate_iff.2
  refine ⟨by rw [applyWrites_length, hlen], fun b hb => ?_⟩
  rcases List.mem_iff_getElem.1 hb with ⟨k, hk, he⟩
  have hk' : k < n := by
    have := applyWrites_length ws l
    omega
  have := applyWrites_getD_of_mem ws l k hval (hcov k hk') (by omega)
  rw [List.getD_eq_getElem _ _ hk] at this
  rw [← he, this]

theorem lt_ceilDiv_iff {x c : Int} (hc : 0 < c) (k : Int) :
    k < (x + c - 1) / c ↔ k * c < x := by
  rw [show (k < (x + c - 1) / c) ↔ (k + 1 ≤ (x + c - 1) / c) from by omega,
    Int.le_ediv_iff_mul_le hc, add_one_mul]
  constructor <;> intro h <;> linarith

theorem ceilDiv_mul_ge {x c : Int} (hc : 0 < c) :
    x ≤ (x + c - 1) / c * c := by
  have h := Int.lt_ediv_add_one_mul_self (x + c - 1) hc
  rw [add_one_mul] at h
  linarith

theorem lt_strideCnt_iff {T : Nat} (hT : 0 < T) (lo hi : Int) (k : Nat) :
    k < strideCnt lo hi T ↔ lo + (k : Int) * T < hi := by
  have hT' : (0 : Int) < T := by exact_mod_cast hT
  unfold strideCnt
  rw [Int.lt_toNat, lt_ceilDiv_iff hT']
  constructor <;> intro h <;> linarith

theorem mem_strideList_iff {T : Nat} (hT : 0 < T) {lo hi x : Int} :
    x ∈ strideList lo hi T ↔ ∃ k : Nat, x = lo + (k : Int) * T ∧ x < hi := by
  unfold strideList
  constructor
  · intro hm
    rcases List.mem_map.1 hm with ⟨k, hk, he⟩
    refine ⟨k, he.symm, ?_⟩
    rw [← he]
    exact (lt_strideCnt_iff hT lo hi k).1 (List.mem_range.1 hk)
  · rintro ⟨k, rfl, hx⟩
    exact List.mem_map.2
      ⟨k, List.mem_range.2 ((lt_strideCnt_iff hT lo hi k).2 hx), rfl⟩

theorem natSplit (jn T : Nat) (hT : 0 < T) :
    ∃ t k : Nat, t < T ∧ jn = t + k * T :=
  ⟨jn % T, jn / T, Nat.mod_lt _ hT, by rw [Nat.mod_add_div']⟩

theorem strideCover {T : Nat} (hT : 0 < T) (base bound x : Int) :
    (∃ t : Nat, t < T ∧ x ∈ strideList ((t : Int) + base) (bound + base) T) ↔
      base ≤ x ∧ x < bound + base := by
  constructor
  · rintro ⟨t, ht, hm⟩
    rcases (mem_strideList_iff hT).1 hm with ⟨k, hk, hx⟩
    have hkT : (0 : Int) ≤ (k : Int) * T :=
      mul_nonneg (Int.natCast_nonneg k) (Int.natCast_nonneg T)
    constructor
    · have ht0 : (0 : Int) ≤ t := Int.natCast_nonneg t
      linarith [hk]
    · exact hx
  · rintro ⟨h1, h2⟩
    rcases natSplit (x - base).toNat T hT with ⟨t, k, ht, hs⟩
    have hcast : ((x - base).toNat : Int) = (t : Int) + (k : Int) * T := by
      exact_mod_cast hs
    have h3 : ((x - base).toNat : Int) = x - base := Int.toNat_of_nonneg (by omega)
    refine ⟨t, ht, (mem_strideList_iff hT).2 ⟨k, by linarith, h2⟩⟩

/-! ### Write traces of the light relaxer -/

theorem lightThreadGo_ws_fst {σ : Type} (cx : LightBlockCtx σ)
    (iters : List Int) (st : LTSt) (s : σ) :
    ((lightThreadGo cx iters st s).ws).map Prod.fst
      = iters.map (fun i => cx.offset + i) := by
  induction iters generalizing st s with
  | nil => rfl
  | cons i rest ih => simp [lightThreadGo, ih]

theorem lightThreadGo_false {σ : Type} (cx : LightBlockCtx σ)
    (hc : ∀ v u s, cx.cond v u s = false) (iters : List Int) (st : LTSt) (s : σ) :
    (lightThreadGo cx iters st s).ws
        = iters.map (fun i => (cx.offset + i, (-1 : Int)))
      ∧ (lightThreadGo cx iters st s).apl = []
      ∧ (lightThreadGo cx iters st s).s = s := by
  induction iters generalizing st s with
  | nil => exact ⟨rfl, rfl, rfl⟩
  | cons i rest ih => simp [lightThreadGo, hc, ih]

theorem lightThreads_ws_fst {σ : Type} (cx : LightBlockCtx σ)
    (ts : List Nat) (s : σ) :
    ((lightThreads cx ts s).ws).map Prod.fst
      = ts.flatMap (fun t : Nat =>
          (strideList (t : Int) cx.size cx.T).map (fun i => cx.offset + i)) := by
  induction ts generalizing s with
  | nil => rfl
  | cons t rest ih => simp [lightThreads, lightThreadGo_ws_fst, ih]

theorem lightThreads_false {σ : Type} (cx : LightBlockCtx σ)
    (hc : ∀ v u s, cx.cond v u s = false) (ts : List Nat) (s : σ) :
    (∀ w ∈ (lightThreads cx ts s).ws, w.2 = -1)
      ∧ (lightThreads cx ts s).apl = [] ∧ (lightThreads cx ts s).s = s := by
  induction ts generalizing s with
  | nil => exact ⟨by simp [lightThreads], rfl, rfl⟩
  | cons t rest ih =>
    rcases lightThreadGo_false cx hc (strideList (t : Int) cx.size cx.T)
      (lightRefresh cx t) s with ⟨hw, ha, hs⟩
    refine ⟨?_, ?_, ?_⟩
    · intro w hw'
      rcases List.mem_append.1 (by simpa [lightThreads] using hw') with h | h
      · rw [hw] at h
        rcases List.mem_map.1 h with ⟨i, _, rfl⟩
        rfl
      · rw [hs] at h
        exact (ih s).1 w h
    · simp [lightThreads, ha, hs, (ih s).2.1]
    · simp [lightThreads, hs, (ih s).2.2]

theorem lightBlock_mem {σ : Type} (env : LightEnv σ) (bid : Nat) (s : σ)
    (hT : 0 < env.T) (x : Int) :
    x ∈ ((lightBlock env bid s).ws).map Prod.fst ↔
      lightOffset env.scanned env.T bid ≤ x ∧
        x < lightOffset env.scanned env.T bid + lightSize env bid := by
  show x ∈ ((lightThreads (lightCtx env bid) (List.range env.T) s).ws).map Prod.fst ↔ _
  rw [lightThreads_ws_fst]
  constructor
  · intro hm
    rcases List.mem_flatMap.1 hm with ⟨t, ht, hmm⟩
    rcases List.mem_map.1 hmm with ⟨i, hi, rfl⟩
    have hcov := (strideCover hT 0 (lightSize env bid) i).1
      ⟨t, List.mem_range.1 ht, by simpa using hi⟩
    rcases hcov with ⟨h1, h2⟩
    constructor
    · show lightOffset env.scanned env.T bid ≤ (lightCtx env bid).offset + i
      show lightOffset env.scanned env.T bid ≤ lightOffset env.scanned env.T bid + i
      omega
    · show (lightCtx env bid).offset + i < _
      show lightOffset env.scanned env.T bid + i <
        lightOffset env.scanned env.T bid + lightSize env bid
      omega
  · rintro ⟨h1, h2⟩
    rcases (strideCover hT 0 (lightSize env bid)
        (x - lightOffset env.scanned env.T bid)).2 ⟨by omega, by omega⟩
      with ⟨t, ht, hmem⟩
    refine List.mem_flatMap.2 ⟨t, List.mem_range.2 ht, List.mem_map.2
      ⟨x - lightOffset env.scanned env.T bid, by simpa using hmem, ?_⟩⟩
    show (lightCtx env bid).offset + _ = x
    show lightOffset env.scanned env.T bid + _ = x
    omega

/-! ### Write traces of the partitioned relaxer -/

theorem partThreadGo_ws_fst {σ : Type} (rc : PartRoundCtx σ)
    (iters : List Int) (st : PTSt) (s : σ) :
    ((partThreadGo rc iters st s).ws).map Prod.fst
      = iters.map (fun i => rc.outOff + rc.procBase + (i - rc.eOffBase)) := by
  induction iters generalizing st s with
  | nil => rfl
  | cons i rest ih => simp [partThreadGo, ih]

theorem partThreadGo_false {σ : Type} (rc : PartRoundCtx σ)
    (hc : ∀ v u s, rc.cond v u s = false) (iters : List Int) (st : PTSt) (s : σ) :
    (partThreadGo rc iters st s).ws
        = iters.map (fun i => (rc.outOff + rc.procBase + (i - rc.eOffBase), (-1 : Int)))
      ∧ (partThreadGo rc iters st s).apl = []
      ∧ (partThreadGo rc iters st s).s = s := by
  induction iters generalizing st s with
  | nil => exact ⟨rfl, rfl, rfl⟩
  | cons i rest ih => simp [partThreadGo, hc, ih]

theorem partThreads_ws_fst {σ : Type} (rc : PartRoundCtx σ)
    (ts : List Nat) (s : σ) :
    ((partThreads rc ts s).ws).map Prod.fst
      = ts.flatMap (fun t : Nat =>
          (strideList ((t : Int) + rc.eOffBase) (rc.eLast + rc.eOffBase) rc.T).map
            (fun i => rc.outOff + rc.procBase + (i - rc.eOffBase))) := by
  induction ts generalizing s with
  | nil => rfl
  | cons t rest ih => simp [partThreads, partThreadGo_ws_fst, ih]

theorem partThreads_false {σ : Type} (rc : PartRoundCtx σ)
    (hc : ∀ v u s, rc.cond v u s = false) (ts : List Nat) (s : σ) :
    (∀ w ∈ (partThreads rc ts s).ws, w.2 = -1)
      ∧ (partThreads rc ts s).apl = [] ∧ (partThreads rc ts s).s = s := by
  induction ts generalizing s with
  | nil => exact ⟨by simp [partThreads], rfl, rfl⟩
  | cons t rest ih =>
    rcases partThreadGo_false rc hc
      (strideList ((t : Int) + rc.eOffBase) (rc.eLast + rc.eOffBase) rc.T)
      (partInit rc ((t : Int) + rc.eOffBase)) s with ⟨hw, ha, hs⟩
    refine ⟨?_, ?_, ?_⟩
    · intro w hw'
      rcases List.mem_append.1 (by simpa [partThreads] using hw') with h | h
      · rw [hw] at h
        rcases List.mem_map.1 h with ⟨i, _, rfl⟩
        rfl
      · rw [hs] at h
        exact (ih s).1 w h
    · simp [partThreads, ha, hs, (ih s).2.1]
    · simp [partThreads, hs, (ih s).2.2]

theorem partThreads_mem {σ : Type} (rc : PartRoundCtx σ) (s : σ)
    (hT : 0 < rc.T) (x : Int) :
    x ∈ ((partThreads rc (List.range rc.T) s).ws).map Prod.fst ↔
      rc.outOff + rc.procBase ≤ x ∧ x < rc.outOff + rc.procBase + rc.eLast := by
  rw [partThreads_ws_fst]
  constructor
  · intro hm
    rcases List.mem_flatMap.1 hm with ⟨t, ht, hmm⟩
    rcases List.mem_map.1 hmm with ⟨i, hi, rfl⟩
    have hcov := (strideCover hT rc.eOffBase rc.eLast i).1
      ⟨t, List.mem_range.1 ht, hi⟩
    omega
  · intro h
    rcases (strideCover hT rc.eOffBase rc.eLast
        (x - rc.outOff - rc.procBase + rc.eOffBase)).2 ⟨by omega, by omega⟩
      with ⟨t, ht, hmem⟩
    exact List.mem_flatMap.2 ⟨t, List.mem_range.2 ht,
      List.mem_map.2 ⟨_, hmem, by omega⟩⟩

/-! ### Generic kernel-fold lemmas and ordered-scan facts -/

theorem kernelFold_mem_of {σ : Type} (blk : Nat → σ → KOut σ) (bs : List Nat)
    (s : σ) (x : Int) (b : Nat) (hb : b ∈ bs)
    (h : ∀ s', x ∈ ((blk b s').ws).map Prod.fst) :
    x ∈ ((kernelFold blk bs s).ws).map Prod.fst := by
  induction bs generalizing s with
  | nil => simp at hb
  | cons c rest ih =>
    rcases List.mem_cons.1 hb with rfl | hb'
    · simp only [kernelFold, List.map_append, List.mem_append]
      exact Or.inl (h s)
    · simp only [kernelFold, List.map_append, List.mem_append]
      exact Or.inr (ih _ hb')

theorem kernelFold_all {σ : Type} (blk : Nat → σ → KOut σ) (bs : List Nat)
    (s : σ) (Q : Int × Int → Prop)
    (h : ∀ b ∈ bs, ∀ s' w, w ∈ (blk b s').ws → Q w) :
    ∀ w ∈ (kernelFold blk bs s).ws, Q w := by
  induction bs generalizing s with
  | nil => simp [kernelFold]
  | cons c rest ih =>
    intro w hw
    rcases List.mem_append.1 (by simpa [kernelFold] using hw) with h1 | h1
    · exact h c (List.mem_cons_self _ _) s w h1
    · exact ih _ (fun b hb => h b (List.mem_cons_of_mem _ hb)) w h1

theorem kernelFold_apl {σ : Type} (blk : Nat → σ → KOut σ) (bs : List Nat)
    (s : σ) (h : ∀ b ∈ bs, ∀ s', (blk b s').apl = []) :
    (kernelFold blk bs s).apl = [] := by
  induction bs generalizing s with
  | nil => rfl
  | cons c rest ih =>
    simp [kernelFold, h c (List.mem_cons_self _ _) s,
      ih _ (fun b hb => h b (List.mem_cons_of_mem _ hb))]

theorem aread_mono (l : List Int) (hmono : List.Pairwise (· ≤ ·) l)
    (i j : Int) (h0 : 0 ≤ i) (hij : i ≤ j) (hj : j < (l.length : Int)) :
    aread l i ≤ aread l j := by
  rcases eq_or_lt_of_le hij with rfl | hlt
  · exact le_refl _
  · have hi' : i.toNat < l.length := by omega
    have hj' : j.toNat < l.length := by omega
    rw [aread_eq_getElem l i h0 hi', aread_eq_getElem l j (by omega) hj']
    have := List.pairwise_iff_get.1 hmono ⟨i.toNat, hi'⟩ ⟨j.toNat, hj'⟩
      (by simp only [Fin.mk_lt_mk]; omega)
    simpa using this

theorem aread_nonneg (l : List Int) (hnn : ∀ x ∈ l, 0 ≤ x) (i : Int)
    (h0 : 0 ≤ i) (hi : i < (l.length : Int)) : 0 ≤ aread l i := by
  rw [aread_eq_getElem l i h0 (by omega)]
  exact hnn _ (List.getElem_mem _)

/-! ### Loop invariant of the partitioned relaxer -/

/-- Loop invariant of one partitioned worker group: the group has produced
(and only produced) the output slots `[outOff, outOff + processed)`, each at
least once; while work remains, `e_offset` realigns output position
`outOff + processed` with the cumulative count just before the staging
window, and the staging window still reaches that position. -/
def PartInv {σ : Type} (cx : PartCtx σ) (st : PartSt σ) : Prop :=
  0 ≤ st.p ∧ 0 ≤ st.processed ∧ st.processed ≤ cx.work ∧
  (cx.pEnd ≤ st.p → st.processed = cx.work) ∧
  (st.processed < cx.work → st.p < cx.pEnd →
    0 ≤ st.eOff ∧
    preRead cx.scanned st.p + st.eOff = cx.outOff + st.processed ∧
    cx.outOff + st.processed ≤ aread cx.scanned st.p) ∧
  (∀ w ∈ st.ws, cx.outOff ≤ w.1 ∧ w.1 < cx.outOff + st.processed) ∧
  (∀ x : Int, cx.outOff ≤ x → x < cx.outOff + st.processed →
    x ∈ st.ws.map Prod.fst)

theorem roundLastI_nonneg {σ : Type} (cx : PartCtx σ) (st : PartSt σ)
    (hT : 0 < cx.T) (hp : st.p < cx.pEnd) : 0 ≤ roundLastI cx st := by
  unfold roundLastI; split <;> omega

theorem roundLastI_lt {σ : Type} (cx : PartCtx σ) (st : PartSt σ)
    (hT : 0 < cx.T) : roundLastI cx st < (cx.T : Int) := by
  unfold roundLastI; split <;> omega

theorem roundLastI_in_window {σ : Type} (cx : PartCtx σ) (st : PartSt σ)
    (hT : 0 < cx.T) (hp : st.p < cx.pEnd) :
    st.p + roundLastI cx st < cx.pEnd := by
  unfold roundLastI; split <;> omega

theorem roundSE_read {σ : Type} (cx : PartCtx σ) (st : PartSt σ)
    (hT : 0 < cx.T) (hp : st.p < cx.pEnd) :
    aread (roundSE cx st) (roundLastI cx st)
      = aread cx.scanned (st.p + roundLastI cx st) - preRead cx.scanned st.p := by
  have h0 := roundLastI_nonneg cx st hT hp
  have h1 := roundLastI_lt cx st hT
  have h2 := roundLastI_in_window cx st hT hp
  rw [roundSE, aread_map_range _ _ _ h0 h1, Int.toNat_of_nonneg h0, if_pos h2,
    roundPre]

theorem partRound_inv {σ : Type} (cx : PartCtx σ) (st : PartSt σ)
    (hT : 0 < cx.T)
    (hlen : cx.pEnd ≤ (cx.scanned.length : Int))
    (hmono : List.Pairwise (· ≤ ·) cx.scanned)
    (hcap : cx.outOff + cx.work ≤ aread cx.scanned (cx.pEnd - 1))
    (hinv : PartInv cx st)
    (hg1 : st.processed < cx.work) (hg2 : st.p < cx.pEnd) :
    PartInv cx (partRound cx st) := by
  obtain ⟨hP0, hPr0, hPrW, _, hCond, hWub, hWcov⟩ := hinv
  obtain ⟨hEoff, hInv2, hInv3⟩ := hCond hg1 hg2
  have hSEr := roundSE_read cx st hT hg2
  have hl0 := roundLastI_nonneg cx st hT hg2
  have hlW := roundLastI_in_window cx st hT hg2
  have hscan_p : cx.outOff + st.processed ≤ aread cx.scanned (st.p + roundLastI cx st) :=
    le_trans hInv3 (aread_mono _ hmono st.p (st.p + roundLastI cx st) hP0
      (by omega) (by omega))
  have hEl0 : 0 ≤ roundELast cx st := by
    unfold roundELast
    rw [hSEr]
    have h := hInv2
    unfold preRead at h ⊢
    omega
  have hElB : roundELast cx st ≤ cx.work - st.processed := min_le_right _ _
  have hfin : cx.pEnd ≤ st.p + cx.T → st.processed + roundELast cx st = cx.work := by
    intro hle
    have hlast : roundLastI cx st = cx.pEnd - st.p - 1 := by
      unfold roundLastI; rw [if_pos hle]
    have hidx : st.p + roundLastI cx st = cx.pEnd - 1 := by rw [hlast]; ring
    unfold roundELast
    rw [hSEr, hidx]
    have h := hInv2
    omega
  have hp' : (partRound cx st).p = st.p + cx.T := rfl
  have heoff' : (partRound cx st).eOff = 0 := rfl
  have hproc' : (partRound cx st).processed = st.processed + roundELast cx st := rfl
  have hws' : (partRound cx st).ws
      = st.ws ++ (partThreads (roundRC cx st) (List.range cx.T) st.s).ws := rfl
  have hmemr := fun x => partThreads_mem (roundRC cx st) st.s hT x
  simp only [roundRC] at hmemr
  refine ⟨?_, ?_, ?_, ?_, ?_, ?_, ?_⟩
  · rw [hp']; omega
  · rw [hproc']; omega
  · rw [hproc']; omega
  · rw [hp', hproc']; exact hfin
  · rw [hp', hproc', heoff']
    intro hlt hlt2
    have hlast : roundLastI cx st = (cx.T : Int) - 1 := by
      unfold roundLastI; rw [if_neg (by omega)]
    have hidx : st.p + roundLastI cx st = st.p + cx.T - 1 := by rw [hlast]; ring
    have hA : roundELast cx st
        = aread cx.scanned (st.p + cx.T - 1) - preRead cx.scanned st.p - st.eOff := by
      have hE : roundELast cx st
          = min (aread cx.scanned (st.p + cx.T - 1) - preRead cx.scanned st.p - st.eOff)
              (cx.work - st.processed) := by
        unfold roundELast
        rw [hSEr, hidx]
      omega
    have hpre' : preRead cx.scanned (st.p + cx.T)
        = aread cx.scanned (st.p + cx.T - 1) := by
      unfold preRead; rw [if_pos (by omega)]
    have hmo : aread cx.scanned (st.p + cx.T - 1) ≤ aread cx.scanned (st.p + cx.T) :=
      aread_mono _ hmono _ _ (by omega) (by omega) (by omega)
    refine ⟨le_refl _, ?_, ?_⟩
    · rw [hpre']; omega
    · omega
  · intro w hw
    rw [hws'] at hw
    rw [hproc']
    rcases List.mem_append.1 hw with h1 | h1
    · have := hWub w h1
      omega
    · have := (hmemr w.1).1 (List.mem_map_of_mem Prod.fst h1)
      omega
  · intro x h1 h2
    rw [hws']
    rw [hproc'] at h2
    rw [List.map_append]
    by_cases hx : x < cx.outOff + st.processed
    · exact List.mem_append.2 (Or.inl (hWcov x h1 hx))
    · exact List.mem_append.2 (Or.inr ((hmemr x).2 ⟨by omega, by omega⟩))

theorem partRound_p {σ : Type} (cx : PartCtx σ) (st : PartSt σ) :
    (partRound cx st).p = st.p + cx.T := rfl

theorem partLoop_inv {σ : Type} (cx : PartCtx σ)
    (hT : 0 < cx.T)
    (hlen : cx.pEnd ≤ (cx.scanned.length : Int))
    (hmono : List.Pairwise (· ≤ ·) cx.scanned)
    (hcap : cx.outOff + cx.work ≤ aread cx.scanned (cx.pEnd - 1)) :
    ∀ (fuel : Nat) (st : PartSt σ), PartInv cx st →
      (cx.pEnd - st.p).toNat < fuel →
      PartInv cx (partLoop cx fuel st) ∧
        ¬((partLoop cx fuel st).processed < cx.work ∧
          (partLoop cx fuel st).p < cx.pEnd) := by
  intro fuel
  induction fuel with
  | zero => intro st _ h; omega
  | succ n ih =>
    intro st hinv hm
    by_cases hg : st.processed < cx.work ∧ st.p < cx.pEnd
    · have hstep := partRound_inv cx st hT hlen hmono hcap hinv hg.1 hg.2
      have hmeas : (cx.pEnd - (partRound cx st).p).toNat < n := by
        rw [partRound_p]; omega
      have := ih (partRound cx st) hstep hmeas
      simpa only [partLoop, if_pos hg] using this
    · simp only [partLoop, if_neg hg]
      exact ⟨hinv, hg⟩

theorem partLoop_iterate {σ : Type} (cx : PartCtx σ) (hT : 0 < cx.T) :
    ∀ (fuel : Nat) (st : PartSt σ), (cx.pEnd - st.p).toNat < fuel →
      ∃ n : Nat, partLoop cx fuel st = (partRound cx)^[n] st ∧
        ¬((partLoop cx fuel st).processed < cx.work ∧
            (partLoop cx fuel st).p < cx.pEnd) ∧
        ∀ m < n, ((partRound cx)^[m] st).processed < cx.work ∧
            ((partRound cx)^[m] st).p < cx.pEnd := by
  intro fuel
  induction fuel with
  | zero => intro st h; omega
  | succ k ih =>
    intro st hm
    by_cases hg : st.processed < cx.work ∧ st.p < cx.pEnd
    · have hmeas : (cx.pEnd - (partRound cx st).p).toNat < k := by
        rw [partRound_p]; omega
      rcases ih (partRound cx st) hmeas with ⟨n, h1, h2, h3⟩
      refine ⟨n + 1, ?_, ?_, ?_⟩
      · simp only [partLoop, if_pos hg]
        rw [h1, Function.iterate_succ_apply]
      · simpa only [partLoop, if_pos hg] using h2
      · intro m hm'
        cases m with
        | zero => simpa using hg
        | succ m' =>
          rw [Function.iterate_succ_apply]
          exact h3 m' (by omega)
    · refine ⟨0, by simp [partLoop, hg], by simpa [partLoop, hg] using hg, ?_⟩
      intro m hm'
      omega

theorem partLoop_false {σ : Type} (cx : PartCtx σ)
    (hc : ∀ v u s, cx.cond v u s = false) :
    ∀ (fuel : Nat) (st : PartSt σ), (∀ w ∈ st.ws, w.2 = -1) → st.apl = [] →
      (∀ w ∈ (partLoop cx fuel st).ws, w.2 = -1) ∧
        (partLoop cx fuel st).apl = [] := by
  intro fuel
  induction fuel with
  | zero => exact fun st h1 h2 => ⟨h1, h2⟩
  | succ k ih =>
    intro st h1 h2
    by_cases hg : st.processed < cx.work ∧ st.p < cx.pEnd
    · simp only [partLoop, if_pos hg]
      rcases partThreads_false (roundRC cx st)
        (fun v u s => hc v u s) (List.range cx.T) st.s with ⟨hw, ha, _⟩
      apply ih
      · intro w hw'
        rcases List.mem_append.1 hw' with h | h
        · exact h1 w h
        · exact hw w h
      · show st.apl ++ (partThreads (roundRC cx st) (List.range cx.T) st.s).apl = []
        rw [h2, ha]
        rfl
    · simp only [partLoop, if_neg hg]
      exact ⟨h1, h2⟩

/-! ### Consistency of the scanned counts and partition starts -/

/-- Consistency of a `RelaxPartitionedEdges` launch with its frontier, in the
sense of spec §3 and §6: `scanned` is a non-decreasing, non-negative
inclusive prefix-sum array of length `input_queue_len` whose last entry is
`output_queue_len`; `partition_size ≥ 1`; `num_partitions` is the number of
output chunks; and, as produced by the external sorted search, the
partition start of chunk `g` is the first frontier position whose cumulative
count exceeds the needle `g * partition_size`. -/
structure PartOK {σ : Type} (env : PartEnv σ) : Prop where
  hT : 1 ≤ env.T
  hlen : (env.scanned.length : Int) = env.inlen
  hmono : List.Pairwise (· ≤ ·) env.scanned
  hnn : ∀ x ∈ env.scanned, 0 ≤ x
  hout : env.outlen = if env.inlen = 0 then 0 else aread env.scanned (env.inlen - 1)
  hpsize : 1 ≤ env.psize
  hnp : env.numParts = (env.outlen + env.psize - 1) / env.psize
  hpsOK : ∀ g : Nat, g < env.numParts.toNat →
    0 ≤ aread env.ps g ∧ aread env.ps g < env.inlen ∧
    (g : Int) * env.psize < aread env.scanned (aread env.ps g) ∧
    ∀ j : Nat, j < (aread env.ps g).toNat →
      aread env.scanned j ≤ (g : Int) * env.psize

theorem partOK_tstart_lt {σ : Type} (env : PartEnv σ) (hok : PartOK env)
    (bid : Nat) (hb : bid < env.numParts.toNat) :
    (bid : Int) * env.psize < env.outlen := by
  have hb' : (bid : Int) < env.numParts := by omega
  rw [hok.hnp] at hb'
  exact (lt_ceilDiv_iff (by have := hok.hpsize; omega) _).1 hb'

theorem partOK_outlen_le {σ : Type} (env : PartEnv σ) (hok : PartOK env) :
    env.outlen ≤ env.numParts * env.psize := by
  have h := ceilDiv_mul_ge (x := env.outlen)
    (show (0 : Int) < env.psize by have := hok.hpsize; omega)
  rw [← hok.hnp] at h
  exact h

theorem partOK_inlen_pos {σ : Type} (env : PartEnv σ) (hok : PartOK env)
    (bid : Nat) (hb : bid < env.numParts.toNat) : 1 ≤ env.inlen := by
  have h1 := partOK_tstart_lt env hok bid hb
  have h2 : 0 ≤ (bid : Int) * env.psize :=
    mul_nonneg (Int.natCast_nonneg bid) (by have := hok.hpsize; omega)
  have h4 := hok.hout
  have h5 := hok.hlen
  by_cases h : env.inlen = 0
  · rw [if_pos h] at h4
    omega
  · omega

theorem partOK_outlen_eq {σ : Type} (env : PartEnv σ) (hok : PartOK env)
    (h1 : 1 ≤ env.inlen) : env.outlen = aread env.scanned (env.inlen - 1) := by
  rw [hok.hout, if_neg (by omega)]

theorem partOK_pEnd_le {σ : Type} (env : PartEnv σ) (hok : PartOK env)
    (bid : Nat) (hb : bid < env.numParts.toNat) :
    partPEnd env bid ≤ env.inlen := by
  unfold partPEnd
  split
  · rename_i hc
    have hb1 : bid + 1 < env.numParts.toNat := by omega
    have h := (hok.hpsOK (bid + 1) hb1).2.1
    push_cast at h
    omega
  · omega

theorem partOK_ps_mono {σ : Type} (env : PartEnv σ) (hok : PartOK env)
    (bid : Nat) (hb : bid + 1 < env.numParts.toNat) :
    aread env.ps bid ≤ aread env.ps ((bid : Int) + 1) := by
  by_contra h
  push_neg at h
  obtain ⟨q0, q1, q2, q3⟩ := hok.hpsOK bid (by omega)
  obtain ⟨r0, r1, r2, r3⟩ := hok.hpsOK (bid + 1) hb
  push_cast at r0 r2
  have hj : (aread env.ps ((bid : Int) + 1)).toNat < (aread env.ps bid).toNat := by
    omega
  have hle := q3 _ hj
  rw [Int.toNat_of_nonneg r0] at hle
  have hexp : ((bid : Int) + 1) * env.psize = (bid : Int) * env.psize + env.psize := by
    ring
  have hps := hok.hpsize
  omega

theorem partOK_p0_lt_pEnd {σ : Type} (env : PartEnv σ) (hok : PartOK env)
    (bid : Nat) (hb : bid < env.numParts.toNat) :
    aread env.ps bid < partPEnd env bid := by
  unfold partPEnd
  split
  · rename_i hc
    have hb1 : bid + 1 < env.numParts.toNat := by omega
    have := partOK_ps_mono env hok bid hb1
    omega
  · exact (hok.hpsOK bid hb).2.1

theorem partOK_cap {σ : Type} (env : PartEnv σ) (hok : PartOK env)
    (bid : Nat) (hb : bid < env.numParts.toNat) :
    partTEnd env bid ≤ aread env.scanned (partPEnd env bid - 1) := by
  unfold partPEnd
  split
  · rename_i hc
    have hb1 : bid + 1 < env.numParts.toNat := by omega
    obtain ⟨hp0, hp1, hp2, hp3⟩ := hok.hpsOK (bid + 1) hb1
    push_cast at hp2
    have hTle : partTEnd env bid ≤ ((bid : Int) + 1) * env.psize := by
      unfold partTEnd; split <;> omega
    have hidx : aread env.ps ((bid : Int) + 1) + 1 - 1 = aread env.ps ((bid : Int) + 1) := by
      ring
    rw [hidx]
    omega
  · have h1 := partOK_inlen_pos env hok bid hb
    have h2 := partOK_outlen_eq env hok h1
    have hTle : partTEnd env bid ≤ env.outlen := by
      unfold partTEnd; split <;> omega
    omega

theorem partBlock_run {σ : Type} (env : PartEnv σ) (bid : Nat) (s : σ)
    (h : (bid : Int) * env.psize < env.outlen) :
    partBlock env bid s =
      ⟨(partLoop (partBlockCtx env bid)
          (partFuel (partBlockCtx env bid) (partBlockInit env bid s))
          (partBlockInit env bid s)).s,
        (partLoop (partBlockCtx env bid)
          (partFuel (partBlockCtx env bid) (partBlockInit env bid s))
          (partBlockInit env bid s)).ws,
        (partLoop (partBlockCtx env bid)
          (partFuel (partBlockCtx env bid) (partBlockInit env bid s))
          (partBlockInit env bid s)).apl⟩ := by
  unfold partBlock
  rw [if_neg (by omega)]

theorem partBlockInit_inv {σ : Type} (env : PartEnv σ) (hok : PartOK env)
    (bid : Nat) (hb : bid < env.numParts.toNat) (s : σ) :
    PartInv (partBlockCtx env bid) (partBlockInit env bid s) := by
  obtain ⟨q0, q1, q2, q3⟩ := hok.hpsOK bid hb
  have hts := partOK_tstart_lt env hok bid hb
  have hp0pEnd := partOK_p0_lt_pEnd env hok bid hb
  have hpsize := hok.hpsize
  have hts0 : 0 ≤ (bid : Int) * env.psize :=
    mul_nonneg (Int.natCast_nonneg bid) (by omega)
  have hexp : ((bid : Int) + 1) * env.psize
      = (bid : Int) * env.psize + env.psize := by ring
  have hwork : 0 ≤ partTEnd env bid - (bid : Int) * env.psize := by
    unfold partTEnd; split <;> omega
  have hpre : preRead env.scanned (aread env.ps bid) ≤ (bid : Int) * env.psize := by
    unfold preRead
    split
    · rename_i hgt
      have hj : (aread env.ps bid - 1).toNat < (aread env.ps bid).toNat := by omega
      have := q3 _ hj
      rw [Int.toNat_of_nonneg (by omega)] at this
      exact this
    · exact hts0
  unfold PartInv
  dsimp only [partBlockCtx, partBlockInit]
  refine ⟨q0, le_refl 0, hwork, ?_, ?_, ?_, ?_⟩
  · intro hcon
    omega
  · intro _ _
    refine ⟨by omega, by ring, by omega⟩
  · intro w hw
    exact absurd hw (by simp)
  · intro x h1 h2
    omega

theorem partBlock_ws_char {σ : Type} (env : PartEnv σ) (hok : PartOK env)
    (bid : Nat) (hb : bid < env.numParts.toNat) (s : σ) :
    (∀ w ∈ (partBlock env bid s).ws,
        (bid : Int) * env.psize ≤ w.1 ∧ w.1 < partTEnd env bid) ∧
    (∀ x : Int, (bid : Int) * env.psize ≤ x → x < partTEnd env bid →
        x ∈ ((partBlock env bid s).ws).map Prod.fst) := by
  have hts := partOK_tstart_lt env hok bid hb
  have hT : 0 < (partBlockCtx env bid).T := by
    show 0 < env.T
    have := hok.hT
    omega
  have hlen : (partBlockCtx env bid).pEnd ≤ ((partBlockCtx env bid).scanned.length : Int) := by
    show partPEnd env bid ≤ (env.scanned.length : Int)
    have := partOK_pEnd_le env hok bid hb
    have := hok.hlen
    omega
  have hcap : (partBlockCtx env bid).outOff + (partBlockCtx env bid).work ≤
      aread (partBlockCtx env bid).scanned ((partBlockCtx env bid).pEnd - 1) := by
    show (bid : Int) * env.psize + (partTEnd env bid - (bid : Int) * env.psize) ≤
      aread env.scanned (partPEnd env bid - 1)
    have := partOK_cap env hok bid hb
    omega
  have hinv0 := partBlockInit_inv env hok bid hb s
  have hfuel : ((partBlockCtx env bid).pEnd - (partBlockInit env bid s).p).toNat <
      partFuel (partBlockCtx env bid) (partBlockInit env bid s) := by
    unfold partFuel
    omega
  obtain ⟨hinvF, hexitF⟩ := partLoop_inv (partBlockCtx env bid) hT hlen hok.hmono
    hcap (partFuel (partBlockCtx env bid) (partBlockInit env bid s))
    (partBlockInit env bid s) hinv0 hfuel
  obtain ⟨f1, f2, f3, f4, _, f6, f7⟩ := hinvF
  have hdone : (partLoop (partBlockCtx env bid)
      (partFuel (partBlockCtx env bid) (partBlockInit env bid s))
      (partBlockInit env bid s)).processed = (partBlockCtx env bid).work := by
    rcases not_and_or.1 hexitF with h | h
    · omega
    · exact f4 (by omega)
  rw [partBlock_run env bid s hts]
  have hwork : (partBlockCtx env bid).work = partTEnd env bid - (bid : Int) * env.psize := rfl
  have houtOff : (partBlockCtx env bid).outOff = (bid : Int) * env.psize := rfl
  constructor
  · intro w hw
    have := f6 w hw
    rw [houtOff] at this
    omega
  · intro x h1 h2
    apply f7 x (by rw [houtOff]; omega)
    rw [houtOff, hdone, hwork]
    omega

theorem partBlock_false {σ : Type} (env : PartEnv σ)
    (hc : ∀ v u s, env.cond v u s = false) (bid : Nat) (s : σ) :
    (∀ w ∈ (partBlock env bid s).ws, w.2 = -1) ∧
      (partBlock env bid s).apl = [] := by
  unfold partBlock
  split
  · exact ⟨by simp, rfl⟩
  · exact partLoop_false (partBlockCtx env bid) (fun v u s => hc v u s)
      (partFuel (partBlockCtx env bid) (partBlockInit env bid s))
      (partBlockInit env bid s) (by simp [partBlockInit]) rfl

theorem partCoverBlock {σ : Type} (env : PartEnv σ) (hok : PartOK env)
    (x : Int) (h0 : 0 ≤ x) (hx : x < env.outlen) :
    ∃ b : Nat, b < env.numParts.toNat ∧ (b : Int) * env.psize ≤ x ∧
      x < partTEnd env b := by
  have hpsize := hok.hpsize
  have hole := partOK_outlen_le env hok
  refine ⟨(x / env.psize).toNat, ?_, ?_, ?_⟩
  · have hdn : 0 ≤ x / env.psize := Int.ediv_nonneg h0 (by omega)
    have hlt : x / env.psize < env.numParts := by
      by_contra hcon
      push_neg at hcon
      have := mul_le_mul_of_nonneg_right hcon (show (0:Int) ≤ env.psize by omega)
      have hml := Int.ediv_mul_le x (show env.psize ≠ 0 by omega)
      omega
    omega
  · have hml := Int.ediv_mul_le x (show env.psize ≠ 0 by omega)
    rw [Int.toNat_of_nonneg (Int.ediv_nonneg h0 (by omega))]
    exact hml
  · have hup := Int.lt_ediv_add_one_mul_self x (show (0:Int) < env.psize by omega)
    unfold partTEnd
    rw [Int.toNat_of_nonneg (Int.ediv_nonneg h0 (by omega))]
    split <;> omega

theorem RelaxPartitionedEdges_sentinel {σ : Type} (env : PartEnv σ)
    (hok : PartOK env) (hc : ∀ v u s, env.cond v u s = false) (s : σ)
    (dOut : List Int) (hdl : dOut.length = env.outlen.toNat) :
    applyWrites dOut (RelaxPartitionedEdges env s).ws
        = List.replicate env.outlen.toNat (-1)
      ∧ (RelaxPartitionedEdges env s).apl = [] := by
  constructor
  · apply applyWrites_eq_replicate _ _ _ hdl
    · exact kernelFold_all (partBlock env) _ s (fun w => w.2 = -1)
        (fun b _ s' w' hw' => (partBlock_false env hc b s').1 w' hw')
    · intro k hk
      have hx : ((k : Int)) < env.outlen := by omega
      rcases partCoverBlock env hok k (Int.natCast_nonneg k) hx with ⟨b, hb, h1, h2⟩
      exact kernelFold_mem_of (partBlock env) _ s _ b (List.mem_range.2 hb)
        (fun s' => (partBlock_ws_char env hok b hb s').2 k h1 h2)
  · exact kernelFold_apl _ _ _ (fun b _ s' => (partBlock_false env hc b s').2)

/-! ### Consistency facts for the light relaxer -/

theorem tmod_window (a T b : Int) (hT : 0 < T) (ha : 0 ≤ a)
    (h1 : T * b ≤ a) (h2 : a < T * (b + 1)) : Int.tmod a T = a - T * b := by
  rw [Int.tmod_eq_emod ha (by omega)]
  have h3 : (a - T * b) % T = a % T := by
    conv_rhs => rw [show a = (a - T * b) + b * T by ring]
    rw [Int.add_mul_emod_self]
  rw [← h3, Int.emod_eq_of_lt (by linarith) (by linarith)]

/-- Consistency of a `RelaxLightEdges` launch with its frontier: `scanned`
is the non-decreasing, non-negative inclusive prefix-sum array of the
frontier's degrees, of length `input_queue_len`. -/
structure LightOK {σ : Type} (env : LightEnv σ) : Prop where
  hT : 2 ≤ env.T
  hlen : (env.scanned.length : Int) = env.range
  hmono : List.Pairwise (· ≤ ·) env.scanned
  hnn : ∀ x ∈ env.scanned, 0 ≤ x

/-- `output_queue_len` implied by an inclusive scan: its last entry. -/
def lightOutLen {σ : Type} (env : LightEnv σ) : Int :=
  if env.range = 0 then 0 else aread env.scanned (env.range - 1)

/-- Exclusive end (in frontier positions) of the chunk of worker group
`bid`: `min(input_queue_len, THREADS*(bid+1))`. -/
def lightBlockEnd {σ : Type} (env : LightEnv σ) (bid : Nat) : Int :=
  if env.range ≤ (env.T : Int) * ((bid : Int) + 1) then env.range
  else (env.T : Int) * ((bid : Int) + 1)

theorem lightNB_lt {σ : Type} (env : LightEnv σ) (hT : 0 < env.T) (bid : Nat) :
    bid < lightNumBlocks env ↔ (bid : Int) * env.T < env.range := by
  unfold lightNumBlocks
  rw [lt_strideCnt_iff hT]
  constructor <;> intro h <;> linarith

theorem lightOffset_zero (scanned : List Int) (T : Nat) :
    lightOffset scanned T 0 = 0 := by
  unfold lightOffset
  rw [if_neg (by norm_num)]

theorem lightOffset_succ (scanned : List Int) (T : Nat) (bid : Nat)
    (hT : 2 ≤ T) (hb : 1 ≤ bid) :
    lightOffset scanned T bid = aread scanned ((T : Int) * bid - 1) := by
  unfold lightOffset
  rw [if_pos]
  have h2 : (2 : Int) * 1 ≤ (T : Int) * bid :=
    mul_le_mul (by exact_mod_cast hT) (by exact_mod_cast hb) (by norm_num)
      (by positivity)
  omega

theorem lightEndId_eq {σ : Type} (env : LightEnv σ) (hT : 0 < env.T)
    (bid : Nat) (hb : (bid : Int) * env.T < env.range) :
    lightEndId env.T env.range bid
      = lightBlockEnd env bid - 1 - (env.T : Int) * bid := by
  have hT' : (0 : Int) < env.T := by exact_mod_cast hT
  have hcomm : (bid : Int) * env.T = (env.T : Int) * bid := mul_comm _ _
  have hexp : (env.T : Int) * ((bid : Int) + 1)
      = (env.T : Int) * bid + env.T := by ring
  have hTb0 : (0 : Int) ≤ (env.T : Int) * bid := by positivity
  unfold lightEndId lightBlockEnd
  split
  · rename_i hc
    exact tmod_window _ _ bid hT' (by omega) (by omega) (by omega)
  · rename_i hc
    exact tmod_window _ _ bid hT' (by omega) (by omega) (by omega)

theorem lightSize_eq {σ : Type} (env : LightEnv σ) (hok : LightOK env)
    (bid : Nat) (hb : bid < lightNumBlocks env) :
    lightSize env bid = aread env.scanned (lightBlockEnd env bid - 1)
      - lightOffset env.scanned env.T bid := by
  have hT : 0 < env.T := by have := hok.hT; omega
  have hblt : (bid : Int) * env.T < env.range := (lightNB_lt env hT bid).1 hb
  have hcomm : (bid : Int) * env.T = (env.T : Int) * bid := mul_comm _ _
  have hexp : (env.T : Int) * ((bid : Int) + 1)
      = (env.T : Int) * bid + env.T := by ring
  have hEnd1 : (env.T : Int) * bid + 1 ≤ lightBlockEnd env bid := by
    unfold lightBlockEnd; split <;> omega
  have hEnd2 : lightBlockEnd env bid ≤ (env.T : Int) * bid + env.T := by
    unfold lightBlockEnd; split <;> omega
  have hEndR : lightBlockEnd env bid ≤ env.range := by
    unfold lightBlockEnd; split <;> omega
  have hE := lightEndId_eq env hT bid hblt
  have he0 : 0 ≤ lightEndId env.T env.range bid := by omega
  have he1 : lightEndId env.T env.range bid < (env.T : Int) := by omega
  unfold lightSize lightSE
  rw [aread_map_range _ _ _ he0 he1, Int.toNat_of_nonneg he0]
  rw [if_pos (by omega)]
  have hidx : (bid : Int) * env.T + lightEndId env.T env.range bid
      = lightBlockEnd env bid - 1 := by omega
  rw [hidx]

/-- Cumulative output-slot boundary before block `n` of the light relaxer. -/
def lightD {σ : Type} (env : LightEnv σ) (n : Nat) : Int :=
  if n = 0 then 0 else aread env.scanned (lightBlockEnd env (n - 1) - 1)

theorem lightOffset_eq_D {σ : Type} (env : LightEnv σ) (hok : LightOK env)
    (bid : Nat) (hb : bid < lightNumBlocks env) :
    lightOffset env.scanned env.T bid = lightD env bid := by
  have hT : 0 < env.T := by have := hok.hT; omega
  cases bid with
  | zero => rw [lightOffset_zero]; rfl
  | succ n =>
    rw [lightOffset_succ env.scanned env.T (n + 1) hok.hT (by omega)]
    show _ = aread env.scanned (lightBlockEnd env n - 1)
    have hblt : ((n + 1 : Nat) : Int) * env.T < env.range :=
      (lightNB_lt env hT (n + 1)).1 hb
    push_cast at hblt
    have hBE : lightBlockEnd env n = (env.T : Int) * ((n : Int) + 1) := by
      unfold lightBlockEnd
      rw [if_neg (by nlinarith)]
    rw [hBE]
    have : (env.T : Int) * ((n + 1 : Nat) : Int) - 1
        = (env.T : Int) * ((n : Int) + 1) - 1 := by push_cast; ring
    rw [this]

theorem lightD_last {σ : Type} (env : LightEnv σ) (hok : LightOK env)
    (hr : 0 < env.range) :
    lightD env (lightNumBlocks env) = lightOutLen env := by
  have hT : 0 < env.T := by have := hok.hT; omega
  have hnb : 0 < lightNumBlocks env := by
    have := (lightNB_lt env hT 0).2 (by simpa using hr)
    omega
  have hge : ¬ ((lightNumBlocks env : Int) * env.T < env.range) := by
    intro hcon
    exact absurd ((lightNB_lt env hT (lightNumBlocks env)).2 hcon)
      (lt_irrefl _)
  push_neg at hge
  obtain ⟨m, hm⟩ : ∃ m, lightNumBlocks env = m + 1 :=
    ⟨lightNumBlocks env - 1, by omega⟩
  rw [hm]
  show aread env.scanned (lightBlockEnd env m - 1) = lightOutLen env
  have hBE : lightBlockEnd env m = env.range := by
    unfold lightBlockEnd
    rw [if_pos]
    rw [hm] at hge
    push_cast at hge
    nlinarith
  rw [hBE]
  unfold lightOutLen
  rw [if_neg (by omega)]

theorem lightBlockEnd_bounds {σ : Type} (env : LightEnv σ) (hT : 0 < env.T)
    (n : Nat) (hn : n < lightNumBlocks env) :
    (env.T : Int) * n + 1 ≤ lightBlockEnd env n ∧
      lightBlockEnd env n ≤ env.range := by
  have hblt := (lightNB_lt env hT n).1 hn
  have hcomm : (n : Int) * env.T = (env.T : Int) * n := mul_comm _ _
  have hexp : (env.T : Int) * ((n : Int) + 1) = (env.T : Int) * n + env.T := by
    ring
  have h0 : (0 : Int) ≤ (env.T : Int) * n := by positivity
  unfold lightBlockEnd
  constructor <;> split <;> omega

theorem lightBlockEnd_mono {σ : Type} (env : LightEnv σ) (a b : Nat)
    (hab : a ≤ b) : lightBlockEnd env a ≤ lightBlockEnd env b := by
  have h : (env.T : Int) * ((a : Int) + 1) ≤ (env.T : Int) * ((b : Int) + 1) :=
    mul_le_mul_of_nonneg_left (by push_cast; omega) (by positivity)
  unfold lightBlockEnd
  split <;> split <;> omega

theorem lightD_le {σ : Type} (env : LightEnv σ) (hok : LightOK env)
    (a b : Nat) (hab : a ≤ b) (hb : b ≤ lightNumBlocks env) :
    lightD env a ≤ lightD env b := by
  have hT : 0 < env.T := by have := hok.hT; omega
  have hlen := hok.hlen
  by_cases ha0 : a = 0
  · subst ha0
    by_cases hb0 : b = 0
    · subst hb0; exact le_refl _
    · have hbn : b - 1 < lightNumBlocks env := by omega
      obtain ⟨e1, e2⟩ := lightBlockEnd_bounds env hT (b - 1) hbn
      have h0 : (0 : Int) ≤ (env.T : Int) * (b - 1 : Nat) := by positivity
      unfold lightD
      rw [if_pos rfl, if_neg hb0]
      exact aread_nonneg _ hok.hnn _ (by omega) (by omega)
  · have hb1 : ¬ b = 0 := by omega
    have han : a - 1 < lightNumBlocks env := by omega
    have hbn : b - 1 < lightNumBlocks env := by omega
    obtain ⟨ea1, ea2⟩ := lightBlockEnd_bounds env hT (a - 1) han
    obtain ⟨eb1, eb2⟩ := lightBlockEnd_bounds env hT (b - 1) hbn
    have h0 : (0 : Int) ≤ (env.T : Int) * (a - 1 : Nat) := by positivity
    have hmo := lightBlockEnd_mono env (a - 1) (b - 1) (by omega)
    unfold lightD
    rw [if_neg ha0, if_neg hb1]
    exact aread_mono _ hok.hmono _ _ (by omega) (by omega) (by omega)

theorem lightCoverExists {σ : Type} (env : LightEnv σ) (hok : LightOK env)
    (n : Nat) (hn : n ≤ lightNumBlocks env) :
    ∀ x : Int, 0 ≤ x → x < lightD env n →
      ∃ b : Nat, b < lightNumBlocks env ∧
        lightOffset env.scanned env.T b ≤ x ∧
        x < lightOffset env.scanned env.T b + lightSize env b := by
  induction n with
  | zero =>
    intro x h1 h2
    rw [show lightD env 0 = 0 from rfl] at h2
    omega
  | succ m ih =>
    intro x h1 h2
    by_cases hx : x < lightD env m
    · exact ih (by omega) x h1 hx
    · push_neg at hx
      refine ⟨m, by omega, ?_, ?_⟩
      · rw [lightOffset_eq_D env hok m (by omega)]
        omega
      · rw [lightSize_eq env hok m (by omega),
          lightOffset_eq_D env hok m (by omega)]
        have hD : lightD env (m + 1)
            = aread env.scanned (lightBlockEnd env m - 1) := by
          unfold lightD
          rw [if_neg (by omega)]
          norm_num
        omega

theorem lightBlock_false {σ : Type} (env : LightEnv σ)
    (hc : ∀ v u s, env.cond v u s = false) (bid : Nat) (s : σ) :
    (∀ w ∈ (lightBlock env bid s).ws, w.2 = -1) ∧
      (lightBlock env bid s).apl = [] := by
  have h := lightThreads_false (lightCtx env bid) (fun v u s => hc v u s)
    (List.range env.T) s
  exact ⟨h.1, h.2.1⟩

theorem RelaxLightEdges_sentinel {σ : Type} (env : LightEnv σ)
    (hok : LightOK env) (hc : ∀ v u s, env.cond v u s = false) (s : σ)
    (dOut : List Int) (hdl : dOut.length = (lightOutLen env).toNat) :
    applyWrites dOut (RelaxLightEdges env s).ws
        = List.replicate (lightOutLen env).toNat (-1)
      ∧ (RelaxLightEdges env s).apl = [] := by
  constructor
  · apply applyWrites_eq_replicate _ _ _ hdl
    · exact kernelFold_all _ _ s (fun w => w.2 = -1)
        (fun b _ s' w' hw' => (lightBlock_false env hc b s').1 w' hw')
    · intro k hk
      have hT : 0 < env.T := by have := hok.hT; omega
      have hr : 0 < env.range := by
        by_contra hcon
        push_neg at hcon
        have hl := hok.hlen
        have hr0 : env.range = 0 := by omega
        rw [show lightOutLen env = 0 by
          unfold lightOutLen; rw [if_pos hr0]] at hk
        simp at hk
      have hx : (k : Int) < lightD env (lightNumBlocks env) := by
        rw [lightD_last env hok hr]
        omega
      rcases lightCoverExists env hok (lightNumBlocks env) (le_refl _) k
        (Int.natCast_nonneg k) hx with ⟨b, hb, h1, h2⟩
      exact kernelFold_mem_of _ _ s _ b (List.mem_range.2 hb)
        (fun s' => (lightBlock_mem env b s' hT k).2 ⟨h1, h2⟩)
  · exact kernelFold_apl _ _ _ (fun b _ s' => (lightBlock_false env hc b s').2)

/-! ### Characterization of the single-write-per-worker kernels -/

theorem lightTop_eq_D {σ : Type} (env : LightEnv σ) (hok : LightOK env)
    (b : Nat) (hb : b < lightNumBlocks env) :
    lightOffset env.scanned env.T b + lightSize env b = lightD env (b + 1) := by
  rw [lightSize_eq env hok b hb]
  have hD : lightD env (b + 1) = aread env.scanned (lightBlockEnd env b - 1) := by
    unfold lightD
    rw [if_neg (by omega)]
    norm_num
  omega

theorem filterMap_range_all {α : Type} (n : Nat) (f : Nat → Option α)
    (g : Nat → α) (h : ∀ w, w < n → f w = some (g w)) :
    (List.range n).filterMap f = (List.range n).map g := by
  induction n with
  | zero => rfl
  | succ k ih =>
    rw [List.range_succ, List.filterMap_append, List.map_append,
      ih (fun w hw => h w (by omega))]
    simp [h k (by omega)]

theorem filterMap_range_eq_map {α : Type} (n m : Nat) (hmn : m ≤ n)
    (f : Nat → Option α) (g : Nat → α)
    (h1 : ∀ w, w < m → f w = some (g w)) (h2 : ∀ w, m ≤ w → f w = none) :
    (List.range n).filterMap f = (List.range m).map g := by
  induction n with
  | zero =>
    obtain rfl : m = 0 := by omega
    rfl
  | succ k ih =>
    by_cases hm : m ≤ k
    · rw [List.range_succ, List.filterMap_append, ih hm]
      simp [h2 k hm]
    · obtain rfl : m = k + 1 := by omega
      exact filterMap_range_all (k + 1) f g h1

theorem getD_set_self {α : Type} (l : List α) (k : Nat) (v d : α)
    (hk : k < l.length) : (l.set k v).getD k d = v := by
  simp [List.getD_eq_getElem?_getD, List.getElem?_set_self, hk]

theorem getD_set_ne {α : Type} (l : List α) (i k : Nat) (v d : α)
    (h : i ≠ k) : (l.set i v).getD k d = l.getD k d := by
  simp [List.getD_eq_getElem?_getD, List.getElem?_set_ne h]

theorem foldl_set_length {α : Type} (ws : List (Nat × α)) (l : List α) :
    (ws.foldl (fun acc wv => acc.set wv.1 wv.2) l).length = l.length := by
  induction ws generalizing l with
  | nil => rfl
  | cons w rest ih =>
    show (rest.foldl _ (l.set w.1 w.2)).length = l.length
    rw [ih, List.length_set]

theorem foldl_set_map_range_getD {α : Type} (d : α) (l0 : List α) (m : Nat)
    (g : Nat → α) (k : Nat) :
    (((List.range m).map (fun w => (w, g w))).foldl
        (fun acc wv => acc.set wv.1 wv.2) l0).getD k d
      = if k < m ∧ k < l0.length then g k else l0.getD k d := by
  induction m with
  | zero => simp
  | succ n ih =>
    rw [List.range_succ, List.map_append, List.foldl_append]
    simp only [List.map_cons, List.map_nil, List.foldl_cons, List.foldl_nil]
    by_cases hk : k = n
    · subst hk
      by_cases hlen : k < l0.length
      · rw [getD_set_self _ _ _ _ (by rw [foldl_set_length]; exact hlen),
          if_pos ⟨by omega, hlen⟩]
      · have hge : l0.length ≤ k := by omega
        have hlen2 : (((List.range k).map (fun w => (w, g w))).foldl
            (fun acc wv => acc.set wv.1 wv.2) l0).length ≤ k := by
          rw [foldl_set_length]; exact hge
        rw [if_neg (by omega)]
        rw [List.getD_eq_default _ _ (by rw [List.length_set]; exact hlen2),
          List.getD_eq_default _ _ hge]
    · rw [getD_set_ne _ _ _ _ _ (by omega), ih]
      exact if_congr (by omega) rfl rfl

theorem markPartitionSizesWrites_eq (numW splitVal : Nat) (size : Int)
    (hs : 0 ≤ size) (hcov : size ≤ (numW : Int)) :
    markPartitionSizesWrites numW splitVal size
      = (List.range size.toNat).map (fun w => (w, splitVal * w % 2 ^ 32)) := by
  unfold markPartitionSizesWrites
  apply filterMap_range_eq_map numW size.toNat (by omega)
  · intro w hw
    rw [if_neg (by omega)]
  · intro w hw
    rw [if_pos (by omega)]

theorem MarkPartitionSizes_getD (needles0 : List Nat) (numW splitVal : Nat)
    (size : Int) (hs : 0 ≤ size) (hcov : size ≤ (numW : Int)) (k : Nat) :
    (MarkPartitionSizes needles0 numW splitVal size).getD k 0
      = if k < size.toNat ∧ k < needles0.length then splitVal * k % 2 ^ 32
        else needles0.getD k 0 := by
  unfold MarkPartitionSizes
  rw [markPartitionSizesWrites_eq numW splitVal size hs hcov,
    foldl_set_map_range_getD]

theorem getEdgeCountsWrites_eq (row queue : List Int) (numW : Nat)
    (nE maxV maxE : Int) (hcov : min nE maxE ≤ (numW : Int)) :
    getEdgeCountsWrites row queue numW nE maxV maxE
      = (List.range (min nE maxE).toNat).map
          (fun w : Nat => (w, GetNeighborListLength row (aread queue w) maxV maxE)) := by
  unfold getEdgeCountsWrites
  apply filterMap_range_eq_map numW (min nE maxE).toNat (by omega)
  · intro w hw
    rw [if_neg (by omega)]
  · intro w hw
    rw [if_pos (by omega)]

theorem GetEdgeCounts_getD (row queue scanned0 : List Int) (numW : Nat)
    (nE maxV maxE : Int) (hcov : min nE maxE ≤ (numW : Int)) (k : Nat) :
    (GetEdgeCounts row queue scanned0 numW nE maxV maxE).getD k 0
      = if k < (min nE maxE).toNat ∧ k < scanned0.length then
          GetNeighborListLength row (aread queue k) maxV maxE
        else scanned0.getD k 0 := by
  unfold GetEdgeCounts
  rw [getEdgeCountsWrites_eq row queue numW nE maxV maxE hcov,
    foldl_set_map_range_getD]

/-! ### Helper for strict-increase arguments -/

theorem chain_lt_getD (l : List Nat) (hch : List.Chain' (· < ·) l) (j : Nat)
    (hj : j + 1 < l.length) : l.getD j 0 < l.getD (j + 1) 0 := by
  have h := List.chain'_iff_get.1 hch j (by omega)
  rw [List.getD_eq_getElem _ _ (by omega), List.getD_eq_getElem _ _ hj]
  simpa using h

/-! ### The claims -/

/-- Claim C1 (code bug).  The claim states that with an always-true predicate
and a no-op visitor, both relaxers output exactly the concatenation of
`column_indices[row_offsets[v] : row_offsets[v+1]]` over the frontier.  The
spec's own §8 scenario refutes this for the literal `RelaxPartitionedEdges`:
its second worker group resolves the owning vertex as `d_queue[v_index]`
(kernel.cuh line 139) with a round-local staged index instead of the staged
`s_vertices[v_index]`, so it expands vertex `queue[0] = 0` instead of
`queue[1] = 1` and `queue[2] = 3`, producing `[1,2,0,2,0,0,2]` instead of
the expected `[1,2,0,2,3,0,1]`. -/
theorem claim1_partitioned_identity_bug :
    applyWrites (List.replicate 7 9) (RelaxPartitionedEdges specEnvPT ()).ws
        ≠ concatNeighbors specRow specCol specQueue
      ∧ applyWrites (List.replicate 7 9) (RelaxPartitionedEdges specEnvPT ()).ws
        = [1, 2, 0, 2, 0, 0, 2]
      ∧ concatNeighbors specRow specCol specQueue = [1, 2, 0, 2, 3, 0, 1] := by
  decide

/-- Claim C2 (code bug).  The claim states that both relaxers produce
identical output sequences for the same graph, frontier, and
predicate/visitor.  On the spec §8 scenario with the always-true predicate,
the literal `RelaxPartitionedEdges` (owner resolved via `d_queue[v_index]`,
line 139) and `RelaxLightEdges` (owner resolved via the staged
`s_vertices[v_index]`, line 210) disagree. -/
theorem claim2_path_equivalence_bug :
    applyWrites (List.replicate 7 9) (RelaxPartitionedEdges specEnvPT ()).ws
        ≠ applyWrites (List.replicate 7 9) (RelaxLightEdges specEnvLT ()).ws
      ∧ applyWrites (List.replicate 7 9) (RelaxLightEdges specEnvLT ()).ws
        = [1, 2, 0, 2, 3, 0, 1] := by
  decide

/-- Claim C3 (confirmed).  With an always-false predicate, both relaxers
write the sentinel `-1` to every slot of the output frontier — the final
output equals `replicate output_queue_len (-1)`, so the length is exactly
`output_queue_len` — and the visitor is never invoked, on every graph,
frontier and consistent `scanned_edges`/`partition_starts`
(`PartOK`/`LightOK`). -/
theorem claim3_sentinel {σP σL : Type} (envP : PartEnv σP) (hokP : PartOK envP)
    (hcP : ∀ v u s, envP.cond v u s = false) (sP : σP) (dOutP : List Int)
    (hdP : dOutP.length = envP.outlen.toNat)
    (envL : LightEnv σL) (hokL : LightOK envL)
    (hcL : ∀ v u s, envL.cond v u s = false) (sL : σL) (dOutL : List Int)
    (hdL : dOutL.length = (lightOutLen envL).toNat) :
    (applyWrites dOutP (RelaxPartitionedEdges envP sP).ws
        = List.replicate envP.outlen.toNat (-1)
      ∧ (RelaxPartitionedEdges envP sP).apl = [])
    ∧ (applyWrites dOutL (RelaxLightEdges envL sL).ws
        = List.replicate (lightOutLen envL).toNat (-1)
      ∧ (RelaxLightEdges envL sL).apl = []) :=
  ⟨RelaxPartitionedEdges_sentinel envP hokP hcP sP dOutP hdP,
   RelaxLightEdges_sentinel envL hokL hcL sL dOutL hdL⟩

/-- Witness for C3: the spec §8 scenario (`output_queue_len = 7`), with
initial output contents `9` everywhere, ends as seven sentinels under both
relaxers. -/
theorem claim3_witness :
    PartOK specEnvP ∧ LightOK specEnvL
      ∧ (applyWrites (List.replicate 7 9) (RelaxPartitionedEdges specEnvP ()).ws
            = List.replicate specEnvP.outlen.toNat (-1)
          ∧ (RelaxPartitionedEdges specEnvP ()).apl = [])
      ∧ (applyWrites (List.replicate 7 9) (RelaxLightEdges specEnvL ()).ws
            = List.replicate (lightOutLen specEnvL).toNat (-1)
          ∧ (RelaxLightEdges specEnvL ()).apl = []) := by
  have hP : PartOK specEnvP :=
    ⟨by decide, by decide, by decide, by decide, by decide, by decide,
     by decide, by decide⟩
  have hL : LightOK specEnvL := ⟨by decide, by decide, by decide, by decide⟩
  have h := claim3_sentinel specEnvP hP (fun _ _ _ => rfl) ()
    (List.replicate 7 9) (by decide) specEnvL hL (fun _ _ _ => rfl) ()
    (List.replicate 7 9) (by decide)
  exact ⟨hP, hL, h.1, h.2⟩

/-- Claim C4, counterexample.  The claim asserts that `GetEdgeCounts` writes
the out-degree into `scanned_edges[i]` for every `i in [0, num_elements)`;
but the worker also idle-returns when `my_id >= max_edge`, so with
`num_elements = 1` and `max_edge = 0` position `0` keeps its old value `99`
instead of the degree `0`. -/
theorem claim4_cex :
    GetEdgeCounts [0] [0] [99] 1 1 1 0 = [99]
      ∧ GetNeighborListLength [0] (aread [0] 0) 1 0 = 0
      ∧ (99 : Int) ≠ 0 := by
  decide

/-- Claim C4 as amended: `GetEdgeCounts` performs exactly one write per
position `i in [0, min(num_elements, max_edge))` — in ascending order, with
the degree of the frontier vertex at `i` from the Neighbor-Length Resolver —
idle-returns for every worker at or beyond `num_elements` or the edge-count
ceiling `max_edge` (so positions in `[min(num_elements, max_edge),
num_elements)` are also left unchanged), leaves all other positions
unchanged, and preserves the array length.  The grid must reach every valid
position (`min(num_elements, max_edge) ≤ numWorkers`). -/
theorem claim4_amended (row queue scanned0 : List Int) (numW : Nat)
    (nE maxV maxE : Int) (hcov : min nE maxE ≤ (numW : Int)) :
    getEdgeCountsWrites row queue numW nE maxV maxE
        = (List.range (min nE maxE).toNat).map
            (fun w : Nat => (w, GetNeighborListLength row (aread queue w) maxV maxE))
      ∧ (∀ k : Nat, (GetEdgeCounts row queue scanned0 numW nE maxV maxE).getD k 0
          = if k < (min nE maxE).toNat ∧ k < scanned0.length then
              GetNeighborListLength row (aread queue k) maxV maxE
            else scanned0.getD k 0)
      ∧ (GetEdgeCounts row queue scanned0 numW nE maxV maxE).length
          = scanned0.length := by
  refine ⟨getEdgeCountsWrites_eq row queue numW nE maxV maxE hcov,
    fun k => GetEdgeCounts_getD row queue scanned0 numW nE maxV maxE hcov k, ?_⟩
  unfold GetEdgeCounts
  exact foldl_set_length _ _

/-- Witness for the amended C4 on the spec §8 scenario: the three raw
degrees `[2, 3, 2]` are each written exactly once, in order. -/
theorem claim4_witness :
    min (3 : Int) 7 ≤ ((3 : Nat) : Int)
      ∧ getEdgeCountsWrites specRow specQueue 3 3 5 7
          = (List.range (min (3 : Int) 7).toNat).map
              (fun w : Nat => (w, GetNeighborListLength specRow (aread specQueue w) 5 7))
      ∧ GetEdgeCounts specRow specQueue [0, 0, 0] 3 3 5 7 = [2, 3, 2] :=
  ⟨by decide,
   (claim4_amended specRow specQueue [0, 0, 0] 3 3 5 7 (by decide)).1,
   by decide⟩

/-- Claim C5, counterexample.  The claim asserts
`GetNeighborListLength` returns 0 whenever `v + 1 ≥ max_vertex`; but for
`v = 0`, `max_vertex = 1`, `row_offsets = [0]`, `max_edge = 5` the code
clamps only the second lookup to `max_edge` and returns
`max_edge - row_offsets[v] = 5 ≠ 0`. -/
theorem claim5_cex :
    (1 : Int) ≤ 0 + 1
      ∧ GetNeighborListLength [0] 0 1 5 = 5
      ∧ (5 : Int) ≠ 0 := by
  decide

/-- Claim C5 as amended: the resolver always returns
`max(0, next_offset - offset)` with the claim's clamped lookups (this part
of the claim holds exactly), and it returns 0 whenever `v ≥ max_vertex` —
but not, in general, when only `v + 1 ≥ max_vertex`. -/
theorem claim5_amended (row : List Int) (v maxV maxE : Int) :
    GetNeighborListLength row v maxV maxE
        = max 0 ((if maxV ≤ v + 1 then maxE else aread row (v + 1))
            - (if maxV ≤ v then maxE else aread row v))
      ∧ (maxV ≤ v → GetNeighborListLength row v maxV maxE = 0) := by
  have he : GetNeighborListLength row v maxV maxE
      = (if (if maxV ≤ v then maxE else aread row v)
            < (if maxV ≤ v + 1 then maxE else aread row (v + 1))
         then (if maxV ≤ v + 1 then maxE else aread row (v + 1))
            - (if maxV ≤ v then maxE else aread row v)
         else 0) := rfl
  rw [he]
  constructor
  · split <;> omega
  · intro h
    rw [if_pos h, if_pos (show maxV ≤ v + 1 by omega), if_neg (lt_irrefl maxE)]

/-- Witness for the amended C5: an id at or beyond `max_vertex` resolves to
degree 0. -/
theorem claim5_witness : GetNeighborListLength [0, 5] 9 2 7 = 0 :=
  (claim5_amended [0, 5] 9 2 7).2 (by decide)

/-- Claim C6, counterexample.  The claim asserts
`needles[i] = split_val * i` as a mathematical product; with
`split_val = 2^31` and `size = 3`, position 2 stores
`(2^31 * 2) mod 2^32 = 0`, not `2^32`. -/
theorem claim6_cex :
    MarkPartitionSizes [7, 7, 7] 3 (2 ^ 31) 3 = [0, 2 ^ 31, 0]
      ∧ 2 ^ 31 * 2 ≠ (0 : Nat) := by
  decide

/-- Claim C6 as amended: `MarkPartitionSizes` performs exactly one write per
position `i in [0, size)`, in ascending order, storing the 32-bit value
`(split_val * i) mod 2^32`; workers at or beyond `size` idle-return, all
other positions are unchanged, and the array length is preserved. -/
theorem claim6_amended (needles0 : List Nat) (numW splitVal : Nat)
    (size : Int) (hs : 0 ≤ size) (hcov : size ≤ (numW : Int)) :
    markPartitionSizesWrites numW splitVal size
        = (List.range size.toNat).map (fun w : Nat => (w, splitVal * w % 2 ^ 32))
      ∧ (∀ k : Nat, (MarkPartitionSizes needles0 numW splitVal size).getD k 0
          = if k < size.toNat ∧ k < needles0.length then splitVal * k % 2 ^ 32
            else needles0.getD k 0)
      ∧ (MarkPartitionSizes needles0 numW splitVal size).length
          = needles0.length := by
  refine ⟨markPartitionSizesWrites_eq numW splitVal size hs hcov,
    fun k => MarkPartitionSizes_getD needles0 numW splitVal size hs hcov k, ?_⟩
  unfold MarkPartitionSizes
  exact foldl_set_length _ _

/-- Witness for the amended C6. -/
theorem claim6_witness :
    (0 : Int) ≤ 3 ∧ (3 : Int) ≤ ((3 : Nat) : Int)
      ∧ markPartitionSizesWrites 3 5 3
          = (List.range (3 : Int).toNat).map (fun w : Nat => (w, 5 * w % 2 ^ 32)) :=
  ⟨by decide, by decide, (claim6_amended [9, 9, 9] 3 5 3 (by decide) (by decide)).1⟩

/-- Claim C8 (code bug).  The claim states that with an empty frontier both
relaxers perform no work and no out-of-bounds access, including on the
shared staging buffer.  The partitioned relaxer does idle (line 108 returns
before touching any array: the model produces no stores and no visitor
calls).  But a launched `RelaxLightEdges` group computes
`end_id = range - 1`: `range` is `unsigned int`, so for `range = 0` this
wraps, reinterprets as `-1` in the `int` variable, survives `% THREADS`
(truncated division), and line 205 then reads `smem_storage.s_edges[-1]` —
an out-of-bounds staging-buffer access. -/
theorem claim8_empty_frontier_bug :
    (partBlock emptyEnvP 0 ()).ws = [] ∧ (partBlock emptyEnvP 0 ()).apl = []
      ∧ lightEndId 2 0 0 = -1 ∧ ¬ (0 : Int) ≤ lightEndId 2 0 0 := by
  decide

/-- Claim C10 as amended: `MarkPartitionSizes` stores
`(split_val * i) mod 2^32`.  When some `i < size` overflows
(`split_val * i ≥ 2^32`), the stored sequence differs from the mathematical
products and is not strictly increasing.  When `split_val = 0` and
`size ≥ 2` the stored sequence is not strictly increasing either — though it
then equals the (all-zero) mathematical products, contrary to the original
claim's wording. -/
theorem claim10_amended (needles0 : List Nat) (numW splitVal : Nat)
    (size : Int) (hs : 0 ≤ size) (hcov : size ≤ (numW : Int))
    (hlen : needles0.length = size.toNat) (hsv : splitVal < 2 ^ 32) :
    (∀ k : Nat, k < size.toNat →
        (MarkPartitionSizes needles0 numW splitVal size).getD k 0
          = splitVal * k % 2 ^ 32)
      ∧ ((∃ i : Nat, i < size.toNat ∧ 2 ^ 32 ≤ splitVal * i) →
          MarkPartitionSizes needles0 numW splitVal size
              ≠ (List.range size.toNat).map (fun i => splitVal * i)
            ∧ ¬ List.Chain' (· < ·) (MarkPartitionSizes needles0 numW splitVal size))
      ∧ (splitVal = 0 → 2 ≤ size.toNat →
          ¬ List.Chain' (· < ·) (MarkPartitionSizes needles0 numW splitVal size)) := by
  have hget : ∀ k : Nat, k < size.toNat →
      (MarkPartitionSizes needles0 numW splitVal size).getD k 0
        = splitVal * k % 2 ^ 32 := by
    intro k hk
    rw [MarkPartitionSizes_getD needles0 numW splitVal size hs hcov k,
      if_pos ⟨hk, by omega⟩]
  have hRlen : (MarkPartitionSizes needles0 numW splitVal size).length
      = size.toNat := by
    unfold MarkPartitionSizes
    rw [foldl_set_length]
    exact hlen
  refine ⟨hget, ?_, ?_⟩
  · rintro ⟨i, hi, hover⟩
    have hchain : ¬ List.Chain' (· < ·)
        (MarkPartitionSizes needles0 numW splitVal size) := by
      intro hch
      have hind : ∀ j : Nat, j ≤ i → splitVal * j < 2 ^ 32 := by
        intro j
        induction j with
        | zero =>
          intro _
          simpa using (by positivity : (0 : Nat) < 2 ^ 32)
        | succ m ihm =>
          intro hji
          have hm := ihm (by omega)
          have hmlt : m < size.toNat := by omega
          have hm1lt : m + 1 < size.toNat := by omega
          have h1 : (MarkPartitionSizes needles0 numW splitVal size).getD m 0
              = splitVal * m := by
            rw [hget m hmlt, Nat.mod_eq_of_lt hm]
          have h2 := hget (m + 1) hm1lt
          have h3 := chain_lt_getD _ hch m (by omega)
          by_contra hcon
          push_neg at hcon
          have hmod : splitVal * (m + 1) % 2 ^ 32 ≤ splitVal * (m + 1) - 2 ^ 32 := by
            rw [Nat.mod_eq_sub_mod hcon]
            exact Nat.mod_le _ _
          have hexp : splitVal * (m + 1) = splitVal * m + splitVal := by ring
          omega
      have := hind i (le_refl i)
      omega
    refine ⟨?_, hchain⟩
    intro heq
    have hlt : i < ((List.range size.toNat).map (fun i => splitVal * i)).length := by
      simp
      omega
    have h1 := hget i hi
    have h2 : ((List.range size.toNat).map (fun i => splitVal * i)).getD i 0
        = splitVal * i := by
      rw [List.getD_eq_getElem _ _ hlt]
      simp
    rw [heq, h2] at h1
    have hmlt : splitVal * i % 2 ^ 32 < 2 ^ 32 := Nat.mod_lt _ (by positivity)
    omega
  · intro hz h2 hch
    have h0 : (MarkPartitionSizes needles0 numW splitVal size).getD 0 0 = 0 := by
      rw [hget 0 (by omega), hz]
      simp
    have h1 : (MarkPartitionSizes needles0 numW splitVal size).getD (0 + 1) 0 = 0 := by
      rw [hget (0 + 1) (by omega), hz]
      simp
    have h3 := chain_lt_getD _ hch 0 (by omega)
    omega

/-- Claim C10, counterexample to its `split_val = 0` branch: with
`split_val = 0` the stored sequence equals the mathematical products (all
zero), whereas the claim asserts it is "not the mathematical products". -/
theorem claim10_cex :
    MarkPartitionSizes [7, 7] 2 0 2
        = (List.range (2 : Int).toNat).map (fun i => 0 * i)
      ∧ MarkPartitionSizes [7, 7] 2 0 2 = [0, 0] := by
  decide

/-- Witness for the amended C10: with `split_val = 2^31` and `size = 3` the
product at index 2 overflows, and the stored needle sequence is not
strictly increasing. -/
theorem claim10_witness :
    (0 : Int) ≤ 3 ∧ (3 : Int) ≤ ((3 : Nat) : Int)
      ∧ ([9, 9, 9] : List Nat).length = (3 : Int).toNat
      ∧ (2 ^ 31 : Nat) < 2 ^ 32
      ∧ ¬ List.Chain' (· < ·) (MarkPartitionSizes [9, 9, 9] 3 (2 ^ 31) 3) := by
  refine ⟨by decide, by decide, by decide, by decide, ?_⟩
  exact ((claim10_amended [9, 9, 9] 3 (2 ^ 31) 3 (by decide) (by decide)
    (by decide) (by decide)).2.1 ⟨2, by decide, by decide⟩).2

/-- Claim C7 (confirmed).  In both relaxers, on consistent inputs, every
store to `d_out` by worker group `g` lands inside that group's statically
assigned output range — `[g*partition_size, min((g+1)*partition_size,
output_queue_len))` for `RelaxPartitionedEdges`, and the cumulative-count
chunk `[lightD g, lightD (g+1))` for `RelaxLightEdges` — and the stores of
distinct groups never target the same output slot, whatever the
predicate/visitor and problem states. -/
theorem claim7_disjoint {σP σL : Type} (envP : PartEnv σP) (hokP : PartOK envP)
    (envL : LightEnv σL) (hokL : LightOK envL) :
    (∀ g : Nat, g < envP.numParts.toNat → ∀ sP : σP,
        ∀ w ∈ (partBlock envP g sP).ws,
          (g : Int) * envP.psize ≤ w.1 ∧ w.1 < partTEnd envP g)
      ∧ (∀ g g' : Nat, g < envP.numParts.toNat → g' < envP.numParts.toNat →
          g ≠ g' → ∀ (s1 s2 : σP), ∀ w ∈ (partBlock envP g s1).ws,
            ∀ w' ∈ (partBlock envP g' s2).ws, w.1 ≠ w'.1)
      ∧ (∀ b : Nat, b < lightNumBlocks envL → ∀ sL : σL,
          ∀ w ∈ (lightBlock envL b sL).ws,
            lightD envL b ≤ w.1 ∧ w.1 < lightD envL (b + 1))
      ∧ (∀ b b' : Nat, b < lightNumBlocks envL → b' < lightNumBlocks envL →
          b ≠ b' → ∀ (s1 s2 : σL), ∀ w ∈ (lightBlock envL b s1).ws,
            ∀ w' ∈ (lightBlock envL b' s2).ws, w.1 ≠ w'.1) := by
  have hTL : 0 < envL.T := by have := hokL.hT; omega
  have hlightC : ∀ b : Nat, b < lightNumBlocks envL → ∀ sL : σL,
      ∀ w ∈ (lightBlock envL b sL).ws,
        lightD envL b ≤ w.1 ∧ w.1 < lightD envL (b + 1) := by
    intro b hb sL w hw
    have hm := (lightBlock_mem envL b sL hTL w.1).1
      (List.mem_map_of_mem Prod.fst hw)
    rw [lightOffset_eq_D envL hokL b hb] at hm
    have ht := lightTop_eq_D envL hokL b hb
    rw [lightOffset_eq_D envL hokL b hb] at ht
    omega
  have hpartC : ∀ g : Nat, g < envP.numParts.toNat → ∀ sP : σP,
      ∀ w ∈ (partBlock envP g sP).ws,
        (g : Int) * envP.psize ≤ w.1 ∧ w.1 < partTEnd envP g :=
    fun g hg sP w hw => (partBlock_ws_char envP hokP g hg sP).1 w hw
  have hkeyP : ∀ (a b : Nat), a < b → b < envP.numParts.toNat →
      ∀ (s1 s2 : σP), ∀ w ∈ (partBlock envP a s1).ws,
        ∀ w' ∈ (partBlock envP b s2).ws, w.1 < w'.1 := by
    intro a b hab hb s1 s2 w hw w' hw'
    have h1 := hpartC a (by omega) s1 w hw
    have h2 := hpartC b hb s2 w' hw'
    have hTle : partTEnd envP a ≤ ((a : Int) + 1) * envP.psize := by
      unfold partTEnd
      split <;> omega
    have hmul : ((a : Int) + 1) * envP.psize ≤ (b : Int) * envP.psize :=
      mul_le_mul_of_nonneg_right (by push_cast; omega)
        (by have := hokP.hpsize; omega)
    omega
  have hkeyL : ∀ (a b : Nat), a < b → b < lightNumBlocks envL →
      ∀ (s1 s2 : σL), ∀ w ∈ (lightBlock envL a s1).ws,
        ∀ w' ∈ (lightBlock envL b s2).ws, w.1 < w'.1 := by
    intro a b hab hb s1 s2 w hw w' hw'
    have h1 := hlightC a (by omega) s1 w hw
    have h2 := hlightC b hb s2 w' hw'
    have h3 := lightD_le envL hokL (a + 1) b (by omega) (by omega)
    omega
  refine ⟨hpartC, ?_, hlightC, ?_⟩
  · intro g g' hg hg' hne s1 s2 w hw w' hw'
    rcases Nat.lt_or_ge g g' with h | h
    · exact ne_of_lt (hkeyP g g' h hg' s1 s2 w hw w' hw')
    · have hlt : g' < g := by omega
      exact (ne_of_lt (hkeyP g' g hlt hg s2 s1 w' hw' w hw)).symm
  · intro b b' hb hb' hne s1 s2 w hw w' hw'
    rcases Nat.lt_or_ge b b' with h | h
    · exact ne_of_lt (hkeyL b b' h hb' s1 s2 w hw w' hw')
    · have hlt : b' < b := by omega
      exact (ne_of_lt (hkeyL b' b hlt hb s2 s1 w' hw' w hw)).symm

/-- Witness for C7 on the spec §8 scenario. -/
theorem claim7_witness :
    PartOK specEnvP ∧ LightOK specEnvL
      ∧ ((∀ g : Nat, g < specEnvP.numParts.toNat → ∀ sP : Unit,
            ∀ w ∈ (partBlock specEnvP g sP).ws,
              (g : Int) * specEnvP.psize ≤ w.1 ∧ w.1 < partTEnd specEnvP g)
        ∧ (∀ g g' : Nat, g < specEnvP.numParts.toNat →
            g' < specEnvP.numParts.toNat → g ≠ g' → ∀ (s1 s2 : Unit),
              ∀ w ∈ (partBlock specEnvP g s1).ws,
                ∀ w' ∈ (partBlock specEnvP g' s2).ws, w.1 ≠ w'.1)
        ∧ (∀ b : Nat, b < lightNumBlocks specEnvL → ∀ sL : Unit,
            ∀ w ∈ (lightBlock specEnvL b sL).ws,
              lightD specEnvL b ≤ w.1 ∧ w.1 < lightD specEnvL (b + 1))
        ∧ (∀ b b' : Nat, b < lightNumBlocks specEnvL →
            b' < lightNumBlocks specEnvL → b ≠ b' → ∀ (s1 s2 : Unit),
              ∀ w ∈ (lightBlock specEnvL b s1).ws,
                ∀ w' ∈ (lightBlock specEnvL b' s2).ws, w.1 ≠ w'.1)) := by
  have hP : PartOK specEnvP :=
    ⟨by decide, by decide, by decide, by decide, by decide, by decide,
     by decide, by decide⟩
  have hL : LightOK specEnvL := ⟨by decide, by decide, by decide, by decide⟩
  exact ⟨hP, hL, claim7_disjoint specEnvP hP specEnvL hL⟩

/-- Claim C9 (confirmed).  For every launch context and initial state, the
round loop of `RelaxPartitionedEdges` (lines 124-176, modelled by
`partLoop` with the budget `partFuel` that `partBlock` uses) terminates of
its own accord: the result is the iterate of `partRound` at the first `n`
where the guard `edges_processed < my_work_size ∧ my_start_partition <
my_end_partition` fails, every earlier iterate still satisfying the
guard. -/
theorem claim9_loop_termination {σ : Type} (cx : PartCtx σ) (st : PartSt σ)
    (hT : 0 < cx.T) :
    ∃ n : Nat, partLoop cx (partFuel cx st) st = (partRound cx)^[n] st
      ∧ ¬((partLoop cx (partFuel cx st) st).processed < cx.work ∧
          (partLoop cx (partFuel cx st) st).p < cx.pEnd)
      ∧ ∀ m < n, ((partRound cx)^[m] st).processed < cx.work ∧
          ((partRound cx)^[m] st).p < cx.pEnd :=
  partLoop_iterate cx hT (partFuel cx st) st (by unfold partFuel; omega)

/-- Witness for C9: the loop of block 0 of the spec §8 partitioned launch. -/
theorem claim9_witness :
    0 < (partBlockCtx specEnvPT 0).T
      ∧ ∃ n : Nat,
          partLoop (partBlockCtx specEnvPT 0)
              (partFuel (partBlockCtx specEnvPT 0) (partBlockInit specEnvPT 0 ()))
              (partBlockInit specEnvPT 0 ())
            = (partRound (partBlockCtx specEnvPT 0))^[n] (partBlockInit specEnvPT 0 ())
        ∧ ¬((partLoop (partBlockCtx specEnvPT 0)
              (partFuel (partBlockCtx specEnvPT 0) (partBlockInit specEnvPT 0 ()))
              (partBlockInit specEnvPT 0 ())).processed < (partBlockCtx specEnvPT 0).work ∧
            (partLoop (partBlockCtx specEnvPT 0)
              (partFuel (partBlockCtx specEnvPT 0) (partBlockInit specEnvPT 0 ()))
              (partBlockInit specEnvPT 0 ())).p < (partBlockCtx specEnvPT 0).pEnd)
        ∧ ∀ m < n,
            ((partRound (partBlockCtx specEnvPT 0))^[m] (partBlockInit specEnvPT 0 ())).processed
                < (partBlockCtx specEnvPT 0).work ∧
              ((partRound (partBlockCtx specEnvPT 0))^[m] (partBlockInit specEnvPT 0 ())).p
                < (partBlockCtx specEnvPT 0).pEnd :=
  ⟨by decide, claim9_loop_termination (partBlockCtx specEnvPT 0)
    (partBlockInit specEnvPT 0 ()) (by decide)⟩
